import Mathlib

/-
  Shallow embedding of the ffs tag-filesystem (src/main.rs, src/utils.rs,
  src/ffs.rs, src/models.rs, src/schema.rs) and proofs about it.

  Strings are Lean String (UTF-8, byte lengths computed explicitly where the
  source uses byte lengths); machine integers (i32, i64) are Int with explicit
  range checks where the source parses or bounds them; database tables are
  lists of rows in table-scan order; SQL filters over nullable columns follow
  SQL three-valued logic (a comparison with NULL never matches).
-/

namespace Ffs

/-- Tag row of the tags table (models.rs). -/
structure Tag where
  id : Int
  name : String
  value : Option String
  sort_value : Option Int
deriving DecidableEq

/-- Point row of the points table (models.rs). -/
structure Point where
  id : Int
  name : String
  path : Option String
  hash : String
  dir : Bool
deriving DecidableEq

/-- Join row of the joins table (models.rs). -/
structure Join where
  id : Int
  tag_id : Int
  point_id : Int
deriving DecidableEq

/-- The relational store: three tables in index-scan order. -/
structure Db where
  points : List Point
  tags : List Tag
  joins : List Join
deriving DecidableEq

/-! Decimal integer rendering and parsing, modelling the Rust Display
    implementation for integers and str::parse with range checks. -/

/-- Decimal digit character for a value below ten. -/
def digitCh : Nat → Char
  | 0 => '0' | 1 => '1' | 2 => '2' | 3 => '3' | 4 => '4'
  | 5 => '5' | 6 => '6' | 7 => '7' | 8 => '8' | 9 => '9'
  | _ => '*'

/-- Numeric value of a decimal digit character, none for a non-digit. -/
def digitVal (c : Char) : Option Nat :=
  if c = '0' then some 0 else if c = '1' then some 1 else if c = '2' then some 2
  else if c = '3' then some 3 else if c = '4' then some 4 else if c = '5' then some 5
  else if c = '6' then some 6 else if c = '7' then some 7 else if c = '8' then some 8
  else if c = '9' then some 9 else none

/-- Fuel-driven big-endian decimal digit writer; the fuel only needs to
    exceed the value for the result to be the full digit string. -/
def natToDigitsGo : Nat → Nat → List Char
  | 0, _ => []
  | fuel + 1, n =>
    if n < 10 then [digitCh n]
    else natToDigitsGo fuel (n / 10) ++ [digitCh (n % 10)]

/-- Big-endian decimal digits of a natural number (no padding, no sign). -/
def natToDigits (n : Nat) : List Char := natToDigitsGo (n + 1) n

/-- Decimal rendering of an integer, as the Rust Display implementation writes it. -/
def intToStr (i : Int) : String :=
  if i < 0 then ⟨'-' :: natToDigits i.natAbs⟩ else ⟨natToDigits i.toNat⟩

/-- Accumulating decimal parser over digit characters. -/
def parseDigitsAux : List Char → Nat → Option Nat
  | [], acc => some acc
  | c :: cs, acc =>
    match digitVal c with
    | some d => parseDigitsAux cs (acc * 10 + d)
    | none => none

/-- Parse a non-empty all-digit character list as a natural number. -/
def parseNatDigits : List Char → Option Nat
  | [] => none
  | c :: cs => parseDigitsAux (c :: cs) 0

/-- Parse an optional sign followed by decimal digits: sign flag and magnitude. -/
def parseSigned : List Char → Option (Bool × Nat)
  | '+' :: rest => (parseNatDigits rest).map (fun n => (false, n))
  | '-' :: rest => (parseNatDigits rest).map (fun n => (true, n))
  | rest => (parseNatDigits rest).map (fun n => (false, n))

/-- Rust str::parse for a signed machine integer with inclusive bounds. -/
def parseIntIn (s : String) (lo hi : Int) : Option Int :=
  match parseSigned s.data with
  | none => none
  | some (neg, n) =>
    let v : Int := if neg then -(n : Int) else (n : Int)
    if lo ≤ v ∧ v ≤ hi then some v else none

/-- Rust str::parse::<i64>. -/
def parseI64 (s : String) : Option Int := parseIntIn s (-(2 ^ 63)) (2 ^ 63 - 1)

/-- Rust str::parse::<i32>. -/
def parseI32 (s : String) : Option Int := parseIntIn s (-(2 ^ 31)) (2 ^ 31 - 1)

/-! The QUERY_RE regex of main.rs, (word)(spaces)(< or > or = or !=)(spaces)(rest),
    with unanchored leftmost-first search semantics as in the Rust regex crate. -/

/-- Word character as matched by the regex word class (ASCII letters, digits, underscore). -/
def isWordChar (c : Char) : Bool := c.isAlphanum || c == '_'

/-- Whitespace character as matched by the regex space class. -/
def isSpaceChar (c : Char) : Bool :=
  c == ' ' || c == '\t' || c == '\n' || c == '\r' || c == '\x0b' || c == '\x0c'

/-- Match one of the operator alternatives at the head of the input. -/
def matchOpChars : List Char → Option (String × List Char)
  | '<' :: rest => some ("<", rest)
  | '>' :: rest => some (">", rest)
  | '!' :: '=' :: rest => some ("!=", rest)
  | '=' :: rest => some ("=", rest)
  | _ => none

/-- Try to match the query regex starting exactly at the head of the input,
    returning the three capture groups. The greedy runs are forced: word
    characters, spaces and operator characters are disjoint, so the only
    backtracking that matters is the trailing space run when the value would
    otherwise be empty, in which case the value is the final space character. -/
def matchAt (cs : List Char) : Option (String × String × String) :=
  let w := cs.takeWhile isWordChar
  if w.isEmpty then none
  else
    let r1 := (cs.dropWhile isWordChar).dropWhile isSpaceChar
    match matchOpChars r1 with
    | none => none
    | some (op, r2) =>
      let tail := r2.dropWhile isSpaceChar
      if tail.isEmpty then
        match r2.getLast? with
        | none => none
        | some c => some (⟨w⟩, op, ⟨[c]⟩)
      else some (⟨w⟩, op, ⟨tail⟩)

/-- Unanchored leftmost search for the query regex. -/
def findMatch : List Char → Option (String × String × String)
  | [] => none
  | c :: cs =>
    match matchAt (c :: cs) with
    | some r => some r
    | none => findMatch cs

/-! Splitting a path component on the literal separator of disjunctions,
    as Rust str::split with a multi-character pattern (leftmost,
    non-overlapping). -/

/-- Accumulating splitter on the four-character disjunction separator. -/
def splitOrAux : List Char → List Char → List (List Char)
  | ' ' :: 'o' :: 'r' :: ' ' :: rest, acc => acc.reverse :: splitOrAux rest []
  | c :: cs, acc => splitOrAux cs (c :: acc)
  | [], acc => [acc.reverse]

/-- Split a component into its disjunct strings. -/
def splitOr (s : String) : List String := (splitOrAux s.data []).map (fun l => ⟨l⟩)

/-- Accumulating splitter on the dot character, as Rust str::split of a char. -/
def splitDotAux : List Char → List Char → List (List Char)
  | [], acc => [acc.reverse]
  | c :: cs, acc =>
    if c = '.' then acc.reverse :: splitDotAux cs [] else splitDotAux cs (c :: acc)

/-- Split a string into its dot-separated pieces (always non-empty). -/
def splitDot (s : List Char) : List (List Char) := splitDotAux s []

/-! SQL comparison helpers over nullable columns: NULL never matches. -/

/-- SQL greater-than filter on a nullable integer column. -/
def sqlGtInt : Option Int → Int → Bool
  | some v, n => v > n
  | none, _ => false

/-- SQL less-than filter on a nullable integer column. -/
def sqlLtInt : Option Int → Int → Bool
  | some v, n => v < n
  | none, _ => false

/-- SQL not-equal filter on a nullable integer column. -/
def sqlNeInt : Option Int → Int → Bool
  | some v, n => v ≠ n
  | none, _ => false

/-- SQL not-equal filter on a nullable text column. -/
def sqlNeStr : Option String → String → Bool
  | some w, v => w ≠ v
  | none, _ => false

/-! The query engine of utils.rs. -/

/-- Tags matched by one disjunct of a path component (the regex dispatch in
    get_tags_by_parts, utils.rs lines 67 to 116). -/
def tagsForDisjunct (db : Db) (q : String) : List Tag :=
  match findMatch q.data with
  | some (name, op, value) =>
    match op, parseI64 value with
    | ">", some sv => db.tags.filter (fun t => t.name == name && sqlGtInt t.sort_value sv)
    | "<", some sv => db.tags.filter (fun t => t.name == name && sqlLtInt t.sort_value sv)
    | "!=", some sv => db.tags.filter (fun t => t.name == name && sqlNeInt t.sort_value sv)
    | "=", some sv => db.tags.filter (fun t => t.name == name && t.sort_value == some sv)
    | "!=", none => db.tags.filter (fun t => t.name == name && sqlNeStr t.value value)
    | "=", none => db.tags.filter (fun t => t.name == name && t.value == some value)
    | _, _ => []
  | none => db.tags.filter (fun t => t.name == q)

/-- get_tags_by_parts of utils.rs: per component, the concatenation of the
    tags matched by each disjunct. -/
def get_tags_by_parts (db : Db) (parts : List String) : List (List Tag) :=
  parts.map (fun part => ((splitOr part).map (tagsForDisjunct db)).flatten)

/-- Push an element unless already present (the contains pre-check pattern). -/
def pushNew (x : Int) (l : List Int) : List Int :=
  if l.contains x then l else l ++ [x]

/-- Point ids joined to any of the given tags, first-seen order, de-duplicated
    (the inner loops of get_points_by_parts). -/
def pointsForPart (db : Db) (tags : List Tag) : List Int :=
  tags.foldl
    (fun acc t =>
      (db.joins.filter (fun j => j.tag_id == t.id)).foldl
        (fun acc2 j => pushNew j.point_id acc2) acc)
    []

/-- get_points_by_parts of utils.rs: all points for an empty component list,
    otherwise the intersection across components of the per-component unions,
    returned in points-table order. -/
def get_points_by_parts (db : Db) (parts : List String) : List Point :=
  if parts = [] then db.points
  else
    let tagsPerPart := get_tags_by_parts db parts
    let pointsPerPart := tagsPerPart.map (pointsForPart db)
    let candidates := pointsPerPart.foldl (fun acc l => l.foldl (fun a x => pushNew x a) acc) []
    let running := pointsPerPart.foldl (fun acc l => acc.filter (fun x => l.contains x)) candidates
    db.points.filter (fun p => running.contains p.id)

/-- get_tags_for_point of utils.rs: tags joined to one point, tags-table order. -/
def get_tags_for_point (db : Db) (p : Point) : List Tag :=
  db.tags.filter (fun t => db.joins.any (fun j => j.point_id == p.id && j.tag_id == t.id))

/-- get_tags_for_points of utils.rs: tags joined to any point of the set. -/
def get_tags_for_points (db : Db) (ps : List Point) : List Tag :=
  db.tags.filter (fun t =>
    db.joins.any (fun j => ps.any (fun p => p.id == j.point_id) && j.tag_id == t.id))

/-- format_tag of ffs.rs: display string of a tag. -/
def format_tag (t : Tag) : String :=
  match t.value with
  | some v => t.name ++ " = " ++ v
  | none => t.name

/-- All point ids of the table are pairwise distinct (the primary key constraint). -/
def idsUnique : List Point → Bool
  | [] => true
  | p :: ps => ps.all (fun q => q.id != p.id) && idsUnique ps

/-! The mount state of ffs.rs. Paths are modelled as their lists of normal
    components (the names iterator of ffs.rs); the root is the empty list.
    HashMaps are association lists looked up front-first, so cons is insert. -/

/-- File kinds surfaced to the kernel. -/
inductive FType where
  | directory
  | symlink
  | regularFile
deriving DecidableEq

/-- One readdir entry: inode, kind, display name. -/
abbrev Entry := Nat × FType × String

/-- Association list lookup (first binding wins, as HashMap get). -/
def alookup {α β : Type} [DecidableEq α] (k : α) : List (α × β) → Option β
  | [] => none
  | (k', v) :: m => if k' = k then some v else alookup k m

/-- Association list removal of every binding of a key (HashMap remove). -/
def aremove {α β : Type} [DecidableEq α] (k : α) (m : List (α × β)) : List (α × β) :=
  m.filter (fun kv => decide (kv.1 ≠ k))

/-- The Ffs struct: counters, identity tables, extra dirs, readdir cache. -/
structure St where
  next_ino : Nat
  next_fh : Nat
  path_to_ino : List (List String × Nat)
  ino_to_path : List (Nat × List String)
  ino_to_point : List (Nat × Point)
  fh_to_path : List (Nat × List String)
  extra_dirs : List (List String)
  dir_entries : List (Nat × List Entry)
deriving DecidableEq

/-- The initial state built by Ffs::new. -/
def initSt : St := ⟨2, 1, [], [], [], [], [], []⟩

/-- new_ino of ffs.rs: reuse the bound inode or allocate the next one. -/
def new_ino (st : St) (p : List String) : Nat × St :=
  match alookup p st.path_to_ino with
  | some i => (i, st)
  | none =>
    (st.next_ino,
     { st with
        next_ino := st.next_ino + 1
        path_to_ino := (p, st.next_ino) :: st.path_to_ino
        ino_to_path := (st.next_ino, p) :: st.ino_to_path })

/-- read_ino of ffs.rs. -/
def read_ino (st : St) (ino : Nat) : Option (List String) := alookup ino st.ino_to_path

/-- new_fh of ffs.rs: always allocate a fresh handle. -/
def new_fh (st : St) (p : List String) : Nat × St :=
  (st.next_fh,
   { st with next_fh := st.next_fh + 1, fh_to_path := (st.next_fh, p) :: st.fh_to_path })

/-- read_fh of ffs.rs: prefer the handle table, fall back to the inode table. -/
def read_fh (st : St) (fh : Nat) (maybe_ino : Option Nat) : Option (List String) :=
  match alookup fh st.fh_to_path, maybe_ino with
  | some p, _ => some p
  | none, some ino => read_ino st ino
  | none, none => none

/-- lookup_point_by_name of ffs.rs: take the last path component, parse the
    piece after its final dot as an i32, and resolve by that id only (the
    nested if-let chain written as an option bind chain). -/
def lookup_point_by_name (db : Db) (path : List String) : Option Point :=
  (path.getLast?).bind (fun last =>
    ((splitDot last.data).getLast?).bind (fun piece =>
      (parseI32 ⟨piece⟩).bind (fun n =>
        db.points.find? (fun r => r.id == n))))

/-! The path grammar of ffs.rs (parse_path). -/

/-- Position of the first flatten marker component, as iter().position(). -/
def idxOfFlatten : List String → Option Nat
  | [] => none
  | s :: r => if s = "@flatten" then some 0 else (idxOfFlatten r).map (· + 1)

/-- Parsed form of a path: flattened with filter, flat and combined component
    lists, or normal. -/
inductive ParsedPath where
  | flattened (filter_names flat_names query_names : List String)
  | normal (path_names : List String)
deriving DecidableEq

/-- parse_path of ffs.rs. -/
def parsePath (names : List String) : ParsedPath :=
  match idxOfFlatten names with
  | some i => .flattened (names.take i) (names.drop (i + 1)) (names.take i ++ names.drop (i + 1))
  | none => .normal names

/-! String helpers used by the resolver. -/

/-- Byte length of a string as Rust str::len (UTF-8 bytes). -/
def byteLen (s : String) : Nat := (s.data.map Char.utf8Size).sum

/-- Join strings with a slash separator, as slice join. -/
def joinSlash : List String → String
  | [] => ""
  | [x] => x
  | x :: xs => x ++ "/" ++ joinSlash xs

/-- Codepoint comparison of characters (equivalently byte comparison, since
    UTF-8 preserves codepoint order, matching the Rust String Ord). -/
def charLt (a b : Char) : Bool := a.toNat < b.toNat

/-- Lexicographic strict order on character lists. -/
def lexLt : List Char → List Char → Bool
  | [], [] => false
  | [], _ :: _ => true
  | _ :: _, [] => false
  | a :: as, b :: bs => charLt a b || (a == b && lexLt as bs)

/-- Lexicographic order on strings, as the Rust String Ord used by sort. -/
def strLe (a b : String) : Bool := !(lexLt b.data a.data)

/-- Insert into a sorted list of strings, keeping order. -/
def insertSorted (s : String) : List String → List String
  | [] => [s]
  | t :: ts => if strLe s t then s :: t :: ts else t :: insertSorted s ts

/-- Ascending sort of display strings, as the slice sort in ffs.rs. Only the
    emptiness and the first element of the sorted list are ever consumed, so
    any sorting algorithm yields the same observations. -/
def sortStrs (l : List String) : List String := l.foldr insertSorted []

/-- Display strings of the tags of a point that are not already components of
    the query path (the full_tags accumulation of ffs.rs, before sorting). -/
def distTags (db : Db) (qnames : List String) (p : Point) : List String :=
  ((get_tags_for_point db p).map format_tag).filter (fun s => !(qnames.contains s))

/-- The flatten-directory membership test of internal_lookup: some matching
    point has the candidate as its first sorted distinguishing display string. -/
def flatDirHit (db : Db) (pq : List String) (flat_name : String) : Bool :=
  (get_points_by_parts db pq).any
    (fun p => (sortStrs (distTags db pq p)).head? == some flat_name)

/-- Result of internal_lookup: the attribute kind with its inode (and size and
    blocks for the regular file), or the not-found error. -/
inductive LookupRes where
  | dirAttr (ino : Nat)
  | linkAttr (ino : Nat)
  | fileAttr (ino : Nat) (size : Nat) (blocks : Nat)
  | err
deriving DecidableEq

/-- Inode carried by a lookup result, none for the error. -/
def resIno : LookupRes → Option Nat
  | .dirAttr i => some i
  | .linkAttr i => some i
  | .fileAttr i _ _ => some i
  | .err => none

/-- internal_lookup of ffs.rs (lines 254 to 388), including every state
    update it performs. -/
def internal_lookup (db : Db) (st : St) (path : List String) (maybe_parent_ino : Option Nat) :
    LookupRes × St :=
  match parsePath path with
  | .flattened filter_names flat_names query_names =>
    match lookup_point_by_name db query_names with
    | some point =>
      let full := point.name ++ "." ++ intToStr point.id
      let r := new_ino st (path ++ [full])
      (if point.dir then .dirAttr r.1 else .linkAttr r.1,
       { r.2 with ino_to_point := (r.1, point) :: r.2.ino_to_point })
    | none =>
      if flat_names = [] then
        (.dirAttr (new_ino st path).1, (new_ino st path).2)
      else if flat_names = ["@flat-info"] then
        (.fileAttr (new_ino st path).1
          ((filter_names.foldl (fun a p => a + byteLen p + 1) 0) - 1) 1,
         (new_ino st path).2)
      else
        let flat_name := flat_names.getLast?.getD ""
        let parent_query := filter_names ++ flat_names.dropLast
        if flat_name = "@dir" then
          match
            (match maybe_parent_ino with
             | some x => some x
             | none => alookup path.dropLast st.path_to_ino) with
          | none => (.err, st)
          | some parent_ino =>
            match alookup parent_ino st.ino_to_point with
            | some point =>
              let full := point.name ++ "." ++ intToStr point.id
              let r := new_ino st (path ++ [full])
              (.linkAttr r.1, { r.2 with ino_to_point := (r.1, point) :: r.2.ino_to_point })
            | none =>
              if flatDirHit db parent_query flat_name then
                (.dirAttr (new_ino st path).1, (new_ino st path).2)
              else (.err, st)
        else
          if flatDirHit db parent_query flat_name then
            (.dirAttr (new_ino st path).1, (new_ino st path).2)
          else (.err, st)
  | .normal path_names =>
    if path.getLast?.getD "" = "@flatten" then
      (.dirAttr (new_ino st path).1, (new_ino st path).2)
    else if st.extra_dirs.contains path then
      (.dirAttr (new_ino st path).1, (new_ino st path).2)
    else if path_names.length = 0 then
      (.dirAttr (new_ino st path).1, (new_ino st path).2)
    else
      match lookup_point_by_name db path with
      | some _ =>
        (.linkAttr (new_ino st path).1, (new_ino st path).2)
      | none =>
        if (get_tags_for_points db (get_points_by_parts db path_names)).any
            (fun t => format_tag t == path.getLast?.getD "") then
          (.dirAttr (new_ino st path).1, (new_ino st path).2)
        else (.err, st)

/-! readdir of ffs.rs: entry computation and the per-inode one-shot cache. -/

/-- One extra-dir iteration of the normal readdir branch. -/
def extraDirStep (path : List String) (acc : List Entry × St) (ed : List String) :
    List Entry × St :=
  match ed.getLast? with
  | none => acc
  | some last =>
    if ed.dropLast = path then
      ((acc.1 ++ [((new_ino acc.2 ed).1, FType.directory, last)]), (new_ino acc.2 ed).2)
    else acc

/-- One point iteration of the normal readdir branch (new_ino is called twice
    in the source; the second call returns the same inode). -/
def normalPointStep (path : List String) (acc : List Entry × St) (p : Point) :
    List Entry × St :=
  let full := p.name ++ "." ++ intToStr p.id
  let r := new_ino acc.2 (path ++ [full])
  let st2 : St := { r.2 with ino_to_point := (r.1, p) :: r.2.ino_to_point }
  let r2 := new_ino st2 (path ++ [full])
  (acc.1 ++ [(r2.1, FType.symlink, full)], r2.2)

/-- One tag iteration of the normal readdir branch: the display name carries
    the value, the inode is bound to the path extended with the bare name. -/
def normalTagStep (path : List String) (acc : List Entry × St) (t : Tag) :
    List Entry × St :=
  let full := format_tag t
  if path.contains full then acc
  else
    (acc.1 ++ [((new_ino acc.2 (path ++ [t.name])).1, FType.directory, full)],
     (new_ino acc.2 (path ++ [t.name])).2)

/-- One point iteration of the flattened readdir branch. -/
def flatPointStep (db : Db) (qnames path : List String) (acc : List String × List Entry × St)
    (p : Point) : List String × List Entry × St :=
  match (sortStrs (distTags db qnames p)).head? with
  | some first_tag =>
    if acc.1.contains first_tag then acc
    else
      (acc.1 ++ [first_tag],
       acc.2.1 ++ [((new_ino acc.2.2 (path ++ [first_tag])).1, FType.directory, first_tag)],
       (new_ino acc.2.2 (path ++ [first_tag])).2)
  | none =>
    match p.path with
    | none => acc
    | some _ =>
      let full := p.name ++ "." ++ intToStr p.id
      let r := new_ino acc.2.2 (path ++ [full])
      (acc.1,
       acc.2.1 ++ [(r.1, if p.dir then FType.directory else FType.symlink, full)],
       { r.2 with ino_to_point := (r.1, p) :: r.2.ino_to_point })

/-- The full entry list computed by the cache-miss arm of readdir; none means
    the not-a-directory error (a flattened path naming a non-directory point). -/
def computeEntries (db : Db) (st : St) (path : List String) : Option (List Entry) × St :=
  let entries0 : List Entry := [(1, FType.directory, "."), (1, FType.directory, "..")]
  match parsePath path with
  | .flattened _ flat_names query_names =>
    let acc1 : List Entry × St :=
      if flat_names = [] then
        (entries0 ++ [((new_ino st (path ++ ["@flat-info"])).1, FType.regularFile, "@flat-info")],
         (new_ino st (path ++ ["@flat-info"])).2)
      else (entries0, st)
    match lookup_point_by_name db query_names with
    | some point =>
      if !point.dir then (none, acc1.2)
      else
        (some (acc1.1 ++ [((new_ino acc1.2 (path ++ ["@dir"])).1, FType.regularFile, "@dir")]),
         (new_ino acc1.2 (path ++ ["@dir"])).2)
    | none =>
      let r := (get_points_by_parts db query_names).foldl
        (flatPointStep db query_names path) ([], acc1.1, acc1.2)
      (some r.2.1, r.2.2)
  | .normal path_names =>
    let r1 := new_ino st (path ++ ["@flatten"])
    let acc1 : List Entry × St := (entries0 ++ [(r1.1, FType.directory, "@flatten")], r1.2)
    let acc2 := r1.2.extra_dirs.foldl (extraDirStep path) acc1
    let points := get_points_by_parts db path_names
    let acc3 := (points.filter (fun p => p.path.isSome)).foldl (normalPointStep path) acc2
    let acc4 := (get_tags_for_points db points).foldl (normalTagStep path) acc3
    (some acc4.1, acc4.2)

/-- Reply to a readdir upcall: the added (inode, next offset, kind, name)
    rows, or the not-a-directory error. -/
inductive ReadReply where
  | entries (es : List (Nat × Nat × FType × String))
  | notdir
deriving DecidableEq

/-- Rows replied for an entry list from a given offset (the enumerate-skip
    loop of readdir; each row carries offset index plus one). -/
def replyList (es : List Entry) (offset : Nat) : List (Nat × Nat × FType × String) :=
  (es.enum.map (fun pr => (pr.2.1, pr.1 + 1, pr.2.2.1, pr.2.2.2))).drop offset

/-- readdir of ffs.rs: serve and possibly evict the cached list, or compute,
    reply and (only at offset zero) store the list under the inode. -/
def readdir (db : Db) (st : St) (ino : Nat) (offset : Nat) : ReadReply × St :=
  match alookup ino st.dir_entries with
  | some es =>
    (.entries (replyList es offset),
     if offset = es.length then { st with dir_entries := aremove ino st.dir_entries } else st)
  | none =>
    let path := (alookup ino st.ino_to_path).getD []
    let r := computeEntries db st path
    match r.1 with
    | none => (.notdir, r.2)
    | some es =>
      (.entries (replyList es offset),
       if offset = 0 then { r.2 with dir_entries := (ino, es) :: r.2.dir_entries } else r.2)

/-- Payload of a read upcall on a resolved path: the slice-pattern match of
    ffs.rs read (a path ending in the flatten marker then the info file). -/
def readPayload (p : List String) : Option String :=
  match p.reverse with
  | a :: b :: rest =>
    if a = "@flat-info" ∧ b = "@flatten" then some (joinSlash rest.reverse) else none
  | _ => none

/-- read of ffs.rs: resolve the path by file handle with inode fallback, then
    serve the info-file payload; anything else is the not-found error (none). -/
def ffs_read (st : St) (ino fh : Nat) : Option String :=
  match read_fh st fh (some ino) with
  | none => none
  | some p => readPayload p

/-! The CLI mutation surface of main.rs that the invariants range over. -/

/-- Optional tag value and sort value, as the TagContent alias of utils.rs. -/
abbrev TagContent := Option (String × Option Int)

/-- The existing-tag lookup of tag_point: by name and value when a value is
    supplied, by name alone when not (main.rs lines 62 to 72). -/
def find_tag (db : Db) (n : String) (c : TagContent) : Option Tag :=
  match c with
  | some (v, _) => db.tags.find? (fun t => t.name == n && t.value == some v)
  | none => db.tags.find? (fun t => t.name == n)

/-- tag_point of main.rs: reuse or insert the tag, then insert the join only
    when no join with the same tag id and point id exists. The fresh random
    ids the source draws are passed in as parameters. -/
def tag_point (db : Db) (pid : Int) (n : String) (c : TagContent) (ntid njid : Int) : Db :=
  let found := find_tag db n c
  let db1 : Db :=
    match found with
    | some _ => db
    | none =>
      let vsv : Option String × Option Int :=
        match c with
        | some (v, some sv) => (some v, some sv)
        | some (v, none) => (some v, none)
        | none => (none, none)
      { db with tags := db.tags ++ [⟨ntid, n, vsv.1, vsv.2⟩] }
  let tid : Int :=
    match found with
    | some t => t.id
    | none => ntid
  if (db1.joins.find? (fun j => j.tag_id == tid && j.point_id == pid)).isSome then db1
  else { db1 with joins := db1.joins ++ [⟨njid, tid, pid⟩] }

/-- Inputs of one add command, with the results of the file inspections the
    source performs (hash, dir flag, autotags) passed in as data, and the
    random ids likewise. -/
structure AddData where
  name : String
  path_str : String
  hash : String
  dir : Bool
  new_pid : Int
  manual : List ((String × TagContent) × Int × Int)
  auto : List ((String × TagContent) × Int × Int)
deriving DecidableEq

/-- Run a list of tag_point calls against one point id. -/
def runTags (db : Db) (pid : Int) (ts : List ((String × TagContent) × Int × Int)) : Db :=
  ts.foldl (fun d e => tag_point d pid e.1.1 e.1.2 e.2.1 e.2.2) db

/-- SQL update of the path column of the point row with the given id. -/
def setPointPath (db : Db) (pid : Int) (newPath : Option String) : Db :=
  { db with points := db.points.map (fun q => if q.id = pid then { q with path := newPath } else q) }

/-- SQL update of the hash column of the point row with the given id. -/
def setPointHash (db : Db) (pid : Int) (newHash : String) : Db :=
  { db with points := db.points.map (fun q => if q.id = pid then { q with hash := newHash } else q) }

/-- The database effect of update_point_by_path followed by update_point with
    a present new path and hash (the add command): find the point by path,
    else by hash, else insert it; run the manual tags; update the path; run
    the autotags; update the hash. -/
def runAdd (db : Db) (d : AddData) : Db :=
  let r : Db × Int :=
    match db.points.find? (fun q => q.path == some d.path_str) with
    | some q => (db, q.id)
    | none =>
      match db.points.find? (fun q => q.hash == d.hash) with
      | some q => (db, q.id)
      | none =>
        ({ db with points := db.points ++ [⟨d.new_pid, d.name, some d.path_str, d.hash, d.dir⟩] },
         d.new_pid)
  let db2 := runTags r.1 r.2 d.manual
  let db3 := setPointPath db2 r.2 (some d.path_str)
  let db4 := runTags db3 r.2 d.auto
  setPointHash db4 r.2 d.hash

/-- One CLI command of the add and tag families. -/
inductive Cmd where
  | tagc (pid : Int) (n : String) (c : TagContent) (ntid njid : Int)
  | addc (d : AddData)
deriving DecidableEq

/-- Database effect of one command. -/
def runCmd (db : Db) : Cmd → Db
  | .tagc pid n c ntid njid => tag_point db pid n c ntid njid
  | .addc d => runAdd db d

/-- Database effect of a command sequence. -/
def runAll (db : Db) (cs : List Cmd) : Db := cs.foldl runCmd db

/-- The empty index. -/
def dbEmpty : Db := ⟨[], [], []⟩

/-- No two join rows share the same point id and tag id pair. -/
def pairsOk : List Join → Bool
  | [] => true
  | j :: js =>
    js.all (fun k => !(k.point_id == j.point_id && k.tag_id == j.tag_id)) && pairsOk js

/-- The join-table invariant: every join row references a present point id and
    a present tag id, and the point-tag pairs are unique. -/
def joinsWF (db : Db) : Bool :=
  db.joins.all (fun j =>
    db.points.any (fun p => p.id == j.point_id) && db.tags.any (fun t => t.id == j.tag_id))
  && pairsOk db.joins

/-- A sequence is valid when every tag command names a point id existing in
    the database state at the moment the command runs. -/
def validSeq (db : Db) : List Cmd → Prop
  | [] => True
  | c :: cs =>
    (match c with
     | .tagc pid _ _ _ _ => ∃ p ∈ db.points, p.id = pid
     | .addc _ => True) ∧ validSeq (runCmd db c) cs

/-! Order lemmas for the string comparison. -/

theorem charLt_irrefl (a : Char) : charLt a a = false := by
  simp [charLt]

theorem charLt_asymm {a b : Char} (h : charLt a b = true) : charLt b a = false := by
  simp [charLt] at h ⊢
  omega

theorem charLt_trans {a b c : Char} (h1 : charLt a b = true) (h2 : charLt b c = true) :
    charLt a c = true := by
  simp [charLt] at h1 h2 ⊢
  omega

theorem char_eq_of_not_lt {a b : Char} (h1 : charLt a b = false) (h2 : charLt b a = false) :
    a = b := by
  simp [charLt] at h1 h2
  exact Char.ext (UInt32.ext (Nat.le_antisymm h2 h1))

theorem lexLt_irrefl : ∀ l : List Char, lexLt l l = false
  | [] => rfl
  | c :: cs => by simp [lexLt, lexLt_irrefl cs, charLt_irrefl]

theorem lexLt_asymm : ∀ {a b : List Char}, lexLt a b = true → lexLt b a = false
  | [], [], h => by simpa [lexLt] using h
  | [], _ :: _, _ => rfl
  | _ :: _, [], h => by simpa [lexLt] using h
  | a :: as, b :: bs, h => by
    simp only [lexLt, Bool.or_eq_true, Bool.and_eq_true, beq_iff_eq] at h
    simp only [lexLt, Bool.or_eq_false_iff, Bool.and_eq_false_iff]
    rcases h with h | ⟨rfl, hr⟩
    · refine ⟨charLt_asymm h, ?_⟩
      by_cases hba : b = a
      · subst hba
        rw [charLt_irrefl] at h
        exact absurd h (by simp)
      · exact Or.inl (by simpa using hba)
    · exact ⟨charLt_irrefl a, Or.inr (lexLt_asymm hr)⟩

theorem lexLt_trans : ∀ {a b c : List Char},
    lexLt a b = true → lexLt b c = true → lexLt a c = true
  | [], [], _, h1, _ => by simpa [lexLt] using h1
  | [], _ :: _, [], _, h2 => by simpa [lexLt] using h2
  | [], _ :: _, _ :: _, _, _ => rfl
  | _ :: _, [], _, h1, _ => by simpa [lexLt] using h1
  | _ :: _, _ :: _, [], _, h2 => by simpa [lexLt] using h2
  | a :: as, b :: bs, c :: cs, h1, h2 => by
    simp only [lexLt, Bool.or_eq_true, Bool.and_eq_true, beq_iff_eq] at h1 h2 ⊢
    rcases h1 with h1 | ⟨rfl, h1⟩
    · rcases h2 with h2 | ⟨rfl, h2⟩
      · exact Or.inl (charLt_trans h1 h2)
      · exact Or.inl h1
    · rcases h2 with h2 | ⟨rfl, h2⟩
      · exact Or.inl h2
      · exact Or.inr ⟨rfl, lexLt_trans h1 h2⟩

theorem lexLt_connex : ∀ a b : List Char, a ≠ b → lexLt a b = true ∨ lexLt b a = true
  | [], [], h => absurd rfl h
  | [], _ :: _, _ => Or.inl rfl
  | _ :: _, [], _ => Or.inr rfl
  | a :: as, b :: bs, h => by
    by_cases hab : charLt a b = true
    · exact Or.inl (by simp [lexLt, hab])
    · by_cases hba : charLt b a = true
      · exact Or.inr (by simp [lexLt, hba])
      · have hc : a = b := char_eq_of_not_lt (by simpa using hab) (by simpa using hba)
        subst hc
        have hne : as ≠ bs := fun hh => h (by rw [hh])
        rcases lexLt_connex as bs hne with hl | hl
        · exact Or.inl (by simp [lexLt, hl])
        · exact Or.inr (by simp [lexLt, hl])

theorem str_ext {a b : String} (h : a.data = b.data) : a = b :=
  congrArg String.mk h

theorem strLe_refl (s : String) : strLe s s = true := by
  simp [strLe, lexLt_irrefl]

theorem strLe_of_lexLt {a b : String} (h : lexLt a.data b.data = true) : strLe a b = true := by
  simp [strLe, lexLt_asymm h]

theorem strLe_total (a b : String) : strLe a b = true ∨ strLe b a = true := by
  by_cases h : a.data = b.data
  · exact Or.inl (by simp [strLe, h, lexLt_irrefl])
  · rcases lexLt_connex a.data b.data h with hl | hl
    · exact Or.inl (strLe_of_lexLt hl)
    · exact Or.inr (strLe_of_lexLt hl)

theorem strLe_antisymm {a b : String} (h1 : strLe a b = true) (h2 : strLe b a = true) :
    a = b := by
  simp [strLe] at h1 h2
  by_cases h : a.data = b.data
  · exact str_ext h
  · rcases lexLt_connex a.data b.data h with hl | hl
    · exact absurd hl (by simp [h2])
    · exact absurd hl (by simp [h1])

theorem strLe_trans {a b c : String} (h1 : strLe a b = true) (h2 : strLe b c = true) :
    strLe a c = true := by
  simp only [strLe, Bool.not_eq_true'] at h1 h2 ⊢
  by_contra hca
  simp only [Bool.not_eq_false] at hca
  by_cases hab : a.data = b.data
  · rw [hab] at hca
    exact absurd hca (by simp [h2])
  · rcases lexLt_connex a.data b.data hab with hl | hl
    · exact absurd (lexLt_trans hca hl) (by simp [h2])
    · exact absurd hl (by simp [h1])

/-! Lemmas about the insertion sort: the head of the sorted list is exactly a
    least element of the input. -/

theorem insertSorted_ne_nil (s : String) : ∀ l, insertSorted s l ≠ []
  | [] => by simp [insertSorted]
  | t :: ts => by
    simp only [insertSorted]
    split <;> simp

theorem sortStrs_eq_nil_iff : ∀ l : List String, sortStrs l = [] ↔ l = []
  | [] => by simp [sortStrs]
  | a :: l => by
    simp only [sortStrs, List.foldr_cons]
    exact ⟨fun h => absurd h (insertSorted_ne_nil a _), fun h => by simp at h⟩

theorem mem_insertSorted {x s : String} : ∀ {l}, x ∈ insertSorted s l ↔ x = s ∨ x ∈ l
  | [] => by simp [insertSorted]
  | t :: ts => by
    simp only [insertSorted]
    split
    · simp
    · simp only [List.mem_cons, mem_insertSorted]
      tauto

theorem mem_sortStrs {x : String} : ∀ {l}, x ∈ sortStrs l ↔ x ∈ l
  | [] => by simp [sortStrs]
  | a :: l => by
    simp only [sortStrs, List.foldr_cons]
    rw [show List.foldr insertSorted [] l = sortStrs l from rfl] at *
    rw [mem_insertSorted, mem_sortStrs, List.mem_cons]

theorem sortStrs_head_min : ∀ {l m}, (sortStrs l).head? = some m →
    m ∈ l ∧ ∀ x ∈ l, strLe m x = true
  | [], m => by simp [sortStrs]
  | a :: l, m => by
    intro h
    simp only [sortStrs, List.foldr_cons] at h
    rw [show List.foldr insertSorted [] l = sortStrs l from rfl] at h
    rcases hsl : sortStrs l with _ | ⟨t, ts⟩
    · rw [hsl] at h
      simp only [insertSorted, List.head?_cons, Option.some.injEq] at h
      subst h
      have hl : l = [] := (sortStrs_eq_nil_iff l).mp hsl
      subst hl
      exact ⟨by simp, by simp [strLe_refl]⟩
    · rw [hsl] at h
      have ht := @sortStrs_head_min l t (by rw [hsl]; rfl)
      simp only [insertSorted] at h
      split at h
      · next hle =>
        simp only [List.head?_cons, Option.some.injEq] at h
        subst h
        refine ⟨by simp, ?_⟩
        intro x hx
        rcases List.mem_cons.mp hx with rfl | hx
        · exact strLe_refl x
        · exact strLe_trans hle (ht.2 x hx)
      · next hle =>
        simp only [List.head?_cons, Option.some.injEq] at h
        subst h
        have hma : strLe t a = true := by
          rcases strLe_total a t with hh | hh
          · exact absurd hh (by simpa using hle)
          · exact hh
        refine ⟨List.mem_cons_of_mem a ht.1, ?_⟩
        intro x hx
        rcases List.mem_cons.mp hx with rfl | hx
        · exact hma
        · exact ht.2 x hx

theorem sortStrsHeadIff {l : List String} {m : String} :
    (sortStrs l).head? = some m ↔ m ∈ l ∧ ∀ x ∈ l, strLe m x = true := by
  constructor
  · exact sortStrs_head_min
  · rintro ⟨hm, hmin⟩
    rcases hsl : sortStrs l with _ | ⟨y, ys⟩
    · have hl : l = [] := (sortStrs_eq_nil_iff l).mp hsl
      subst hl
      exact absurd hm (by simp)
    · have hy := @sortStrs_head_min l y (by rw [hsl]; rfl)
      have h1 : strLe m y = true := hmin y hy.1
      have h2 : strLe y m = true := hy.2 m hm
      rw [List.head?_cons, strLe_antisymm h2 h1]

/-! Identity-table lemmas: well-formedness and monotonicity of new_ino. -/

/-- Well-formedness of the inode table: every bound inode is below the
    counter, and distinct paths are bound to distinct inodes. -/
def WFst (st : St) : Prop :=
  (∀ p i, alookup p st.path_to_ino = some i → i < st.next_ino) ∧
  (∀ p q i, alookup p st.path_to_ino = some i → alookup q st.path_to_ino = some i → p = q)

/-- Monotone extension of the inode table. -/
def ExtSt (st st' : St) : Prop :=
  ∀ p i, alookup p st.path_to_ino = some i → alookup p st'.path_to_ino = some i

theorem extSt_refl (st : St) : ExtSt st st := fun _ _ h => h

theorem extSt_trans {s1 s2 s3 : St} (h1 : ExtSt s1 s2) (h2 : ExtSt s2 s3) : ExtSt s1 s3 :=
  fun p i h => h2 p i (h1 p i h)

theorem alookup_cons {α β : Type} [DecidableEq α] (k k' : α) (v : β) (m : List (α × β)) :
    alookup k ((k', v) :: m) = if k' = k then some v else alookup k m := rfl

theorem new_ino_none (st : St) (p : List String) (h : alookup p st.path_to_ino = none) :
    (new_ino st p).1 = st.next_ino ∧
    (new_ino st p).2.path_to_ino = (p, st.next_ino) :: st.path_to_ino ∧
    (new_ino st p).2.next_ino = st.next_ino + 1 := by
  unfold new_ino
  rw [h]
  exact ⟨rfl, rfl, rfl⟩

theorem new_ino_some (st : St) (p : List String) {i : Nat}
    (h : alookup p st.path_to_ino = some i) : new_ino st p = (i, st) := by
  unfold new_ino
  rw [h]

theorem new_ino_bound (st : St) (p : List String) :
    alookup p (new_ino st p).2.path_to_ino = some (new_ino st p).1 := by
  rcases hp : alookup p st.path_to_ino with _ | j
  · obtain ⟨h1, h2, _⟩ := new_ino_none st p hp
    rw [h1, h2, alookup_cons, if_pos rfl]
  · rw [new_ino_some st p hp]
    exact hp

theorem new_ino_ext (st : St) (p : List String) : ExtSt st (new_ino st p).2 := by
  intro q i hqi
  rcases hp : alookup p st.path_to_ino with _ | j
  · obtain ⟨_, h2, _⟩ := new_ino_none st p hp
    rw [h2, alookup_cons]
    have hpq : p ≠ q := fun hh => by rw [hh, hqi] at hp; cases hp
    rw [if_neg hpq]
    exact hqi
  · rw [new_ino_some st p hp]
    exact hqi

theorem new_ino_wf {st : St} (p : List String) (h : WFst st) : WFst (new_ino st p).2 := by
  rcases hp : alookup p st.path_to_ino with _ | j
  · obtain ⟨_, h2, h3⟩ := new_ino_none st p hp
    refine ⟨?_, ?_⟩
    · intro q i hq
      rw [h2, alookup_cons] at hq
      rw [h3]
      by_cases hpq : p = q
      · rw [if_pos hpq] at hq
        cases hq
        omega
      · rw [if_neg hpq] at hq
        have := h.1 q i hq
        omega
    · intro q r i hq hr
      rw [h2, alookup_cons] at hq hr
      by_cases hpq : p = q <;> by_cases hpr : p = r
      · rw [← hpq, ← hpr]
      · rw [if_pos hpq] at hq
        rw [if_neg hpr] at hr
        cases hq
        exact absurd (h.1 r _ hr) (by omega)
      · rw [if_neg hpq] at hq
        rw [if_pos hpr] at hr
        cases hr
        exact absurd (h.1 q _ hq) (by omega)
      · rw [if_neg hpq] at hq
        rw [if_neg hpr] at hr
        exact h.2 q r i hq hr
  · rw [new_ino_some st p hp]
    exact h

theorem new_ino_ne {st : St} (h : WFst st) {p q : List String} {i : Nat} (hpq : p ≠ q)
    (hi : alookup q st.path_to_ino = some i) : (new_ino st p).1 ≠ i := by
  rcases hp : alookup p st.path_to_ino with _ | j
  · obtain ⟨h1, _, _⟩ := new_ino_none st p hp
    rw [h1]
    intro he
    have := h.1 q i hi
    omega
  · rw [new_ino_some st p hp]
    intro he
    exact hpq (h.2 p q i (he ▸ hp) hi)

theorem new_ino_next_le (st : St) (p : List String) :
    st.next_ino ≤ (new_ino st p).2.next_ino := by
  rcases hp : alookup p st.path_to_ino with _ | j
  · obtain ⟨_, _, h3⟩ := new_ino_none st p hp
    omega
  · rw [new_ino_some st p hp]

/-! Path grammar lemmas: the parse of a path around its first flatten marker. -/

theorem idxOfFlatten_none {l : List String} : idxOfFlatten l = none ↔ "@flatten" ∉ l := by
  induction l with
  | nil => simp [idxOfFlatten]
  | cons a t ih =>
    simp only [idxOfFlatten, List.mem_cons]
    by_cases ha : a = "@flatten"
    · simp [ha]
    · have ha' : ¬"@flatten" = a := fun h => ha h.symm
      simp only [if_neg ha, Option.map_eq_none', ih, not_or]
      exact ⟨fun h => ⟨ha', h⟩, fun h => h.2⟩

theorem idxOfFlatten_append {f : List String} (hf : "@flatten" ∉ f) (r : List String) :
    idxOfFlatten (f ++ "@flatten" :: r) = some f.length := by
  induction f with
  | nil => simp [idxOfFlatten]
  | cons a t ih =>
    have ha : a ≠ "@flatten" := fun h => hf (by simp [h])
    have ht : "@flatten" ∉ t := fun h => hf (List.mem_cons_of_mem a h)
    simp [idxOfFlatten, ha, ih ht]

theorem drop_len_succ_append {α : Type} (f : List α) (x : α) (r : List α) :
    (f ++ x :: r).drop (f.length + 1) = r := by
  rw [show f ++ x :: r = (f ++ [x]) ++ r by simp,
      show f.length + 1 = (f ++ [x]).length by simp]
  exact List.drop_left _ _

theorem parsePath_flattened {f r : List String} (hf : "@flatten" ∉ f) :
    parsePath (f ++ "@flatten" :: r) = .flattened f r (f ++ r) := by
  unfold parsePath
  rw [idxOfFlatten_append hf]
  dsimp only
  rw [List.take_left, drop_len_succ_append]

theorem idxOfFlatten_some : ∀ {l : List String} {i : Nat}, idxOfFlatten l = some i →
    ∃ f r, l = f ++ "@flatten" :: r ∧ f.length = i ∧ "@flatten" ∉ f := by
  intro l
  induction l with
  | nil => intro i h; cases h
  | cons a t ih =>
    intro i h
    simp only [idxOfFlatten] at h
    split at h
    · next ha =>
      cases h
      exact ⟨[], t, by simp [ha], rfl, by simp⟩
    · next ha =>
      rcases hj : idxOfFlatten t with _ | j
      · rw [hj] at h; cases h
      · rw [hj] at h
        simp only [Option.map_some', Option.some.injEq] at h
        obtain ⟨f, r, hl, hlen, hmem⟩ := ih hj
        refine ⟨a :: f, r, by simp [hl], by simp [hlen, h], ?_⟩
        simp only [List.mem_cons, not_or]
        exact ⟨fun hh => ha hh.symm, hmem⟩

theorem parsePath_flattened_inv {names f fl c : List String}
    (h : parsePath names = .flattened f fl c) :
    names = f ++ "@flatten" :: fl ∧ c = f ++ fl ∧ "@flatten" ∉ f := by
  unfold parsePath at h
  rcases hidx : idxOfFlatten names with _ | i <;> rw [hidx] at h
  · cases h
  · dsimp only at h
    obtain ⟨f', r', hn, hlen, hmem⟩ := idxOfFlatten_some hidx
    subst hn
    rw [← hlen, List.take_left, drop_len_succ_append] at h
    injection h with h1 h2 h3
    subst h1
    subst h2
    exact ⟨rfl, h3.symm, hmem⟩

theorem parsePath_normal_of {names : List String} (h : "@flatten" ∉ names) :
    parsePath names = .normal names := by
  unfold parsePath
  rw [idxOfFlatten_none.mpr h]

theorem parsePath_normal_inv {names ns : List String} (h : parsePath names = .normal ns) :
    ns = names ∧ "@flatten" ∉ names := by
  unfold parsePath at h
  rcases hidx : idxOfFlatten names with _ | i <;> rw [hidx] at h
  · cases h
    exact ⟨rfl, idxOfFlatten_none.mp hidx⟩
  · cases h

/-! Byte-length lemmas for the info-file size formula. -/

theorem byteLen_append (a b : String) : byteLen (a ++ b) = byteLen a + byteLen b := by
  simp [byteLen, String.data_append]

theorem foldl_size (l : List String) (a : Nat) :
    l.foldl (fun acc p => acc + byteLen p + 1) a = a + (l.map (fun p => byteLen p + 1)).sum := by
  induction l generalizing a with
  | nil => simp
  | cons x xs ih => simp [ih]; omega

theorem sum_map_pos {y : String} {ys : List String} :
    1 ≤ ((y :: ys).map (fun p => byteLen p + 1)).sum := by
  simp only [List.map_cons, List.sum_cons]
  omega

theorem size_formula (l : List String) :
    (l.foldl (fun a p => a + byteLen p + 1) 0) - 1 = byteLen (joinSlash l) := by
  rw [foldl_size]
  induction l with
  | nil => simp [joinSlash, byteLen]
  | cons x xs ih =>
    cases xs with
    | nil => simp [joinSlash, byteLen]
    | cons y ys =>
      have hj : joinSlash (x :: y :: ys) = x ++ "/" ++ joinSlash (y :: ys) := rfl
      rw [hj, byteLen_append, byteLen_append]
      have hs : byteLen "/" = 1 := by decide
      rw [hs]
      have h1 := @sum_map_pos y ys
      simp only [List.map_cons, List.sum_cons] at ih ⊢
      omega

/-! Decimal round-trip lemmas for the rendered point suffix. -/

theorem natToDigitsGo_irrel : ∀ (f1 : Nat) {f2 n : Nat}, n < f1 → n < f2 →
    natToDigitsGo f1 n = natToDigitsGo f2 n := by
  intro f1
  induction f1 with
  | zero => intro f2 n h1 h2; omega
  | succ f ih =>
    intro f2 n h1 h2
    cases f2 with
    | zero => omega
    | succ g =>
      simp only [natToDigitsGo]
      by_cases hn : n < 10
      · simp [hn]
      · simp only [if_neg hn]
        have hd : n / 10 < n := Nat.div_lt_self (by omega) (by omega)
        rw [@ih g (n / 10) (by omega) (by omega)]

theorem natToDigits_unfold (n : Nat) : natToDigits n =
    if n < 10 then [digitCh n] else natToDigits (n / 10) ++ [digitCh (n % 10)] := by
  by_cases hn : n < 10
  · rw [if_pos hn]
    unfold natToDigits
    simp [natToDigitsGo, hn]
  · rw [if_neg hn]
    show natToDigitsGo (n + 1) n = natToDigitsGo (n / 10 + 1) (n / 10) ++ [digitCh (n % 10)]
    rw [show natToDigitsGo (n + 1) n
        = natToDigitsGo n (n / 10) ++ [digitCh (n % 10)] from by simp [natToDigitsGo, hn]]
    have hd : n / 10 < n := Nat.div_lt_self (by omega) (by omega)
    rw [@natToDigitsGo_irrel n (n / 10 + 1) (n / 10) (by omega) (by omega)]

theorem digitVal_digitCh {m : Nat} (h : m < 10) : digitVal (digitCh m) = some m := by
  interval_cases m <;> decide

theorem natToDigits_ne_nil (n : Nat) : natToDigits n ≠ [] := by
  rw [natToDigits_unfold]
  by_cases hn : n < 10 <;> simp [hn]

theorem digitCh_mem_natToDigits : ∀ (n : Nat) (c : Char), c ∈ natToDigits n →
    ∃ m, m < 10 ∧ c = digitCh m := by
  intro n
  induction n using Nat.strong_induction_on with
  | _ n ih =>
    intro c hc
    rw [natToDigits_unfold] at hc
    by_cases hn : n < 10
    · rw [if_pos hn] at hc
      simp only [List.mem_singleton] at hc
      exact ⟨n, hn, hc⟩
    · rw [if_neg hn] at hc
      rcases List.mem_append.mp hc with hc | hc
      · exact ih (n / 10) (Nat.div_lt_self (by omega) (by omega)) c hc
      · simp only [List.mem_singleton] at hc
        exact ⟨n % 10, by omega, hc⟩

theorem parseDigitsAux_append (xs ys : List Char) : ∀ acc : Nat,
    parseDigitsAux (xs ++ ys) acc =
      (parseDigitsAux xs acc).bind (fun a => parseDigitsAux ys a) := by
  induction xs with
  | nil => intro acc; rfl
  | cons c cs ih =>
    intro acc
    simp only [List.cons_append, parseDigitsAux]
    rcases hdv : digitVal c with _ | d
    · rfl
    · exact ih _

theorem parseDigitsAux_natToDigits (n : Nat) : ∀ acc : Nat,
    parseDigitsAux (natToDigits n) acc = some (acc * 10 ^ (natToDigits n).length + n) := by
  induction n using Nat.strong_induction_on with
  | _ n ih =>
    intro acc
    rw [natToDigits_unfold]
    by_cases hn : n < 10
    · rw [if_pos hn]
      simp [parseDigitsAux, digitVal_digitCh hn]
    · rw [if_neg hn]
      rw [parseDigitsAux_append]
      have hd : n / 10 < n := Nat.div_lt_self (by omega) (by omega)
      rw [ih (n / 10) hd acc]
      simp only [Option.some_bind, parseDigitsAux, digitVal_digitCh (show n % 10 < 10 by omega)]
      have hmod : 10 * (n / 10) + n % 10 = n := Nat.div_add_mod n 10
      have hexp : (acc * 10 ^ (natToDigits (n / 10)).length + n / 10) * 10 + n % 10
          = acc * (10 ^ (natToDigits (n / 10)).length * 10) + (10 * (n / 10) + n % 10) := by
        ring
      simp only [List.length_append, List.length_singleton, pow_succ]
      rw [hexp, hmod]

theorem parseNatDigits_natToDigits (n : Nat) : parseNatDigits (natToDigits n) = some n := by
  have h := parseDigitsAux_natToDigits n 0
  rcases hnd : natToDigits n with _ | ⟨c, cs⟩
  · exact absurd hnd (natToDigits_ne_nil n)
  · show parseDigitsAux (c :: cs) 0 = some n
    rw [hnd] at h
    simpa using h

theorem parseSigned_natToDigits (n : Nat) :
    parseSigned (natToDigits n) = some (false, n) := by
  rcases hnd : natToDigits n with _ | ⟨c, cs⟩
  · exact absurd hnd (natToDigits_ne_nil n)
  · have hmem : c ∈ natToDigits n := by rw [hnd]; simp
    obtain ⟨m, hm, hc⟩ := digitCh_mem_natToDigits n c hmem
    have hp : parseNatDigits (natToDigits n) = some n := parseNatDigits_natToDigits n
    rw [hnd] at hp
    subst hc
    interval_cases m <;> simp_all [parseSigned, digitCh]

theorem parseIntIn_eq_neg {s : String} {n : Nat}
    (h : parseSigned s.data = some (true, n)) (lo hi : Int) :
    parseIntIn s lo hi =
      if lo ≤ -(n : Int) ∧ -(n : Int) ≤ hi then some (-(n : Int)) else none := by
  unfold parseIntIn
  rw [h]
  rfl

theorem parseIntIn_eq_pos {s : String} {n : Nat}
    (h : parseSigned s.data = some (false, n)) (lo hi : Int) :
    parseIntIn s lo hi =
      if lo ≤ (n : Int) ∧ (n : Int) ≤ hi then some ((n : Int)) else none := by
  unfold parseIntIn
  rw [h]
  rfl

theorem parseIntIn_intToStr {i lo hi : Int} (h1 : lo ≤ i) (h2 : i ≤ hi) :
    parseIntIn (intToStr i) lo hi = some i := by
  by_cases hneg : i < 0
  · have hdata : (intToStr i).data = '-' :: natToDigits i.natAbs := by
      unfold intToStr
      rw [if_pos hneg]
    have hps : parseSigned (intToStr i).data = some (true, i.natAbs) := by
      rw [hdata]
      show (parseNatDigits (natToDigits i.natAbs)).map (fun n => (true, n)) = _
      rw [parseNatDigits_natToDigits]
      rfl
    rw [parseIntIn_eq_neg hps]
    have hv : -((i.natAbs : Nat) : Int) = i := by omega
    rw [hv]
    rw [if_pos ⟨h1, h2⟩]
  · have hdata : (intToStr i).data = natToDigits i.toNat := by
      unfold intToStr
      rw [if_neg hneg]
    have hps : parseSigned (intToStr i).data = some (false, i.toNat) := by
      rw [hdata]
      exact parseSigned_natToDigits i.toNat
    rw [parseIntIn_eq_pos hps]
    have hv : ((i.toNat : Nat) : Int) = i := by omega
    rw [hv]
    rw [if_pos ⟨h1, h2⟩]

theorem parseI32_intToStr {i : Int} (h1 : -(2 ^ 31) ≤ i) (h2 : i ≤ 2 ^ 31 - 1) :
    parseI32 (intToStr i) = some i := by
  unfold parseI32
  exact parseIntIn_intToStr h1 h2

/-! Split-on-dot lemmas for the rendered point suffix. -/

theorem splitDotAux_ne_nil : ∀ (l acc : List Char), splitDotAux l acc ≠ []
  | [], acc => by simp [splitDotAux]
  | c :: cs, acc => by
    simp only [splitDotAux]
    split
    · simp
    · exact splitDotAux_ne_nil cs (c :: acc)

theorem splitDotAux_no_dot : ∀ {l : List Char} (acc : List Char), '.' ∉ l →
    splitDotAux l acc = [acc.reverse ++ l] := by
  intro l
  induction l with
  | nil => intro acc h; simp [splitDotAux]
  | cons c cs ih =>
    intro acc h
    have hc : c ≠ '.' := fun hh => h (by simp [hh])
    have hcs : '.' ∉ cs := fun hh => h (List.mem_cons_of_mem c hh)
    simp only [splitDotAux, if_neg hc]
    rw [ih (c :: acc) hcs]
    simp

theorem getLast?_cons_ne {α : Type} (a : α) {l : List α} (h : l ≠ []) :
    (a :: l).getLast? = l.getLast? := by
  cases l with
  | nil => exact absurd rfl h
  | cons b t => exact List.getLast?_cons_cons

theorem splitDotAux_append_dot : ∀ (xs ys acc : List Char),
    (splitDotAux (xs ++ '.' :: ys) acc).getLast? = (splitDotAux ys []).getLast? := by
  intro xs
  induction xs with
  | nil =>
    intro ys acc
    simp only [List.nil_append, splitDotAux, if_pos rfl]
    exact getLast?_cons_ne _ (splitDotAux_ne_nil ys [])
  | cons c cs ih =>
    intro ys acc
    simp only [List.cons_append, splitDotAux]
    split
    · exact (getLast?_cons_ne _ (splitDotAux_ne_nil (cs ++ '.' :: ys) [])).trans (ih ys [])
    · exact ih ys _

theorem intToStr_no_dot (i : Int) : '.' ∉ (intToStr i).data := by
  have hdig : ∀ (n : Nat) (c : Char), c ∈ natToDigits n → c ≠ '.' := by
    intro n c hc
    obtain ⟨m, hm, hcm⟩ := digitCh_mem_natToDigits n c hc
    subst hcm
    interval_cases m <;> decide
  unfold intToStr
  by_cases hneg : i < 0
  · rw [if_pos hneg]
    intro hmem
    rcases List.mem_cons.mp hmem with hh | hh
    · cases hh
    · exact hdig _ _ hh rfl
  · rw [if_neg hneg]
    intro hmem
    exact hdig _ _ hmem rfl

/-! find? on a table with unique point ids picks out the member itself. -/

theorem find_id_unique : ∀ {l : List Point}, idsUnique l = true → ∀ {p : Point}, p ∈ l →
    l.find? (fun r => r.id == p.id) = some p := by
  intro l
  induction l with
  | nil => intro _ p hp; cases hp
  | cons q t ih =>
    intro hu p hp
    simp only [idsUnique, Bool.and_eq_true, List.all_eq_true] at hu
    rcases List.mem_cons.mp hp with rfl | hp
    · exact List.find?_cons_of_pos _ (by simp)
    · have hne : q.id ≠ p.id := by
        have h1 := hu.1 p hp
        simp only [bne_iff_ne, ne_eq] at h1
        exact fun h => h1 h.symm
      rw [List.find?_cons_of_neg _ (by simp [hne])]
      exact ih hu.2 hp

/-! Claim theorems. -/

/-- C6: for a disjunct whose regex captures are a name, an operator and a
    value: equality with an integer-parseable value matches tags with that
    name and that sort value; equality with a non-numeric value matches on
    the value string; not-equal with a non-numeric value matches on value
    inequality (over present values, per the SQL filter: a NULL value never
    matches); less-than or greater-than with a non-integer value matches no
    tags. -/
theorem C6_operator_semantics (db : Db) (q name op value : String)
    (h : findMatch q.data = some (name, op, value)) :
    (∀ n : Int, op = "=" → parseI64 value = some n →
      tagsForDisjunct db q
        = db.tags.filter (fun t => t.name == name && t.sort_value == some n)) ∧
    (op = "=" → parseI64 value = none →
      tagsForDisjunct db q
        = db.tags.filter (fun t => t.name == name && t.value == some value)) ∧
    (op = "!=" → parseI64 value = none →
      tagsForDisjunct db q
        = db.tags.filter (fun t => t.name == name && sqlNeStr t.value value)) ∧
    ((op = "<" ∨ op = ">") → parseI64 value = none → tagsForDisjunct db q = []) := by
  refine ⟨?_, ?_, ?_, ?_⟩
  · intro n hop hp
    subst hop
    unfold tagsForDisjunct
    rw [h]
    dsimp only
    rw [hp]
    rfl
  · intro hop hp
    subst hop
    unfold tagsForDisjunct
    rw [h]
    dsimp only
    rw [hp]
    rfl
  · intro hop hp
    subst hop
    unfold tagsForDisjunct
    rw [h]
    dsimp only
    rw [hp]
    rfl
  · intro hop hp
    rcases hop with hop | hop <;>
      (subst hop; unfold tagsForDisjunct; rw [h]; dsimp only; rw [hp]; rfl)

/-- C6 witness: a concrete numeric-equality disjunct matching via sort_value. -/
theorem C6_witness :
    findMatch "year=2020".data = some ("year", "=", "2020") ∧
    parseI64 "2020" = some 2020 ∧
    tagsForDisjunct ⟨[], [⟨10, "year", some "2020", some 2020⟩], []⟩ "year=2020"
      = [⟨10, "year", some "2020", some 2020⟩] := by
  refine ⟨by decide, by decide, ?_⟩
  rw [(C6_operator_semantics ⟨[], [⟨10, "year", some "2020", some 2020⟩], []⟩
    "year=2020" "year" "=" "2020" (by decide)).1 2020 rfl (by decide)]
  decide

/-- C8: the rendered point name, name dot id, looked up under any parent
    path resolves back to the point itself (given the primary-key uniqueness
    of ids and the i32 range of the id column); and every successful lookup
    factors through parsing the substring of the last component after its
    final dot as an integer and resolving by that id alone. -/
theorem C8_lookup_roundtrip (db : Db) (p : Point) (pre : List String)
    (hmem : p ∈ db.points) (hu : idsUnique db.points = true)
    (hlo : -(2 ^ 31) ≤ p.id) (hhi : p.id ≤ 2 ^ 31 - 1) :
    lookup_point_by_name db (pre ++ [p.name ++ "." ++ intToStr p.id]) = some p ∧
    (∀ path q, lookup_point_by_name db path = some q →
      ∃ last piece n, path.getLast? = some last ∧
        (splitDot last.data).getLast? = some piece ∧
        parseI32 ⟨piece⟩ = some n ∧
        db.points.find? (fun r => r.id == n) = some q) := by
  constructor
  · unfold lookup_point_by_name
    rw [List.getLast?_concat]
    have hdata : (p.name ++ "." ++ intToStr p.id).data
        = p.name.data ++ '.' :: (intToStr p.id).data := by
      rw [String.data_append, String.data_append,
          show ("." : String).data = ['.'] from by decide]
      simp
    rw [Option.some_bind, hdata]
    unfold splitDot
    rw [splitDotAux_append_dot, splitDotAux_no_dot [] (intToStr_no_dot p.id)]
    simp only [List.reverse_nil, List.nil_append, List.getLast?_singleton, Option.some_bind]
    rw [show (⟨(intToStr p.id).data⟩ : String) = intToStr p.id from rfl]
    rw [parseI32_intToStr hlo hhi, Option.some_bind]
    exact find_id_unique hu hmem
  · intro path q hq
    unfold lookup_point_by_name at hq
    rcases h1 : path.getLast? with _ | last
    · rw [h1] at hq; cases hq
    · rw [h1, Option.some_bind] at hq
      rcases h2 : (splitDot last.data).getLast? with _ | piece
      · rw [h2] at hq; cases hq
      · rw [h2, Option.some_bind] at hq
        rcases h3 : parseI32 ⟨piece⟩ with _ | n
        · rw [h3] at hq; cases hq
        · rw [h3, Option.some_bind] at hq
          exact ⟨last, piece, n, rfl, h2, h3, hq⟩

/-- C8 witness: a concrete point rendered and resolved back. -/
theorem C8_witness :
    lookup_point_by_name ⟨[⟨1, "f", some "/f", "h", false⟩], [], []⟩ ["x", "f" ++ "." ++ intToStr 1]
      = some ⟨1, "f", some "/f", "h", false⟩ := by
  have h := (C8_lookup_roundtrip ⟨[⟨1, "f", some "/f", "h", false⟩], [], []⟩
    ⟨1, "f", some "/f", "h", false⟩ ["x"] (by decide) (by decide) (by decide) (by decide)).1
  exact h

/-! Lemmas about tag_point for the join and tag invariants. -/

theorem find_tag_mem {db : Db} {n : String} {c : TagContent} {t : Tag}
    (h : find_tag db n c = some t) : t ∈ db.tags := by
  unfold find_tag at h
  rcases c with _ | ⟨v, sv⟩
  · exact List.mem_of_find?_eq_some h
  · exact List.mem_of_find?_eq_some h

theorem find_tag_value_none {db : Db} {n v : String} {sv : Option Int} :
    find_tag db n (some (v, sv)) = none ↔ ¬∃ t ∈ db.tags, t.name = n ∧ t.value = some v := by
  unfold find_tag
  rw [List.find?_eq_none]
  constructor
  · rintro h ⟨t, ht, hn, hv⟩
    exact absurd (by simp [hn, hv]) (h t ht)
  · intro h t ht hpred
    simp only [Bool.and_eq_true, beq_iff_eq] at hpred
    exact h ⟨t, ht, hpred.1, hpred.2⟩

theorem find_tag_noval_none {db : Db} {n : String} :
    find_tag db n none = none ↔ ¬∃ t ∈ db.tags, t.name = n := by
  unfold find_tag
  rw [List.find?_eq_none]
  constructor
  · rintro h ⟨t, ht, hn⟩
    exact absurd (by simp [hn]) (h t ht)
  · intro h t ht hpred
    simp only [beq_iff_eq] at hpred
    exact h ⟨t, ht, hpred⟩

theorem tag_point_tags (db : Db) (pid : Int) (n : String) (c : TagContent) (ntid njid : Int) :
    (tag_point db pid n c ntid njid).tags =
      match find_tag db n c with
      | some _ => db.tags
      | none => db.tags ++
          [⟨ntid, n, (match c with | some (v, _) => some v | none => none),
            (match c with
             | some (_, some sv) => some sv
             | some (_, none) => none
             | none => none)⟩] := by
  unfold tag_point
  rcases hf : find_tag db n c with _ | t
  · dsimp only
    rcases c with _ | ⟨v, _ | sv⟩ <;> dsimp only <;> split <;> rfl
  · dsimp only
    split <;> rfl

theorem tag_point_points (db : Db) (pid : Int) (n : String) (c : TagContent) (ntid njid : Int) :
    (tag_point db pid n c ntid njid).points = db.points := by
  unfold tag_point
  rcases hf : find_tag db n c with _ | t
  · dsimp only
    rcases c with _ | ⟨v, _ | sv⟩ <;> dsimp only <;> split <;> rfl
  · dsimp only
    split <;> rfl

theorem fresh_of_not_isSome {l : List Join} {tid pid : Int}
    (h : ¬(l.find? (fun j => j.tag_id == tid && j.point_id == pid)).isSome = true) :
    ∀ j ∈ l, ¬(j.tag_id = tid ∧ j.point_id = pid) := by
  intro j hj hc
  have hnone : l.find? (fun j => j.tag_id == tid && j.point_id == pid) = none := by
    rcases hfind : l.find? (fun j => j.tag_id == tid && j.point_id == pid) with _ | x
    · exact hfind
    · exact absurd (by rw [hfind]; rfl) h
  have h2 := List.find?_eq_none.mp hnone j hj
  simp [hc.1, hc.2] at h2

theorem tag_point_spec (db : Db) (pid : Int) (n : String) (c : TagContent) (ntid njid : Int) :
    (∃ newtags, (tag_point db pid n c ntid njid).tags = db.tags ++ newtags) ∧
    ((tag_point db pid n c ntid njid).joins = db.joins ∨
      ∃ tid, (tag_point db pid n c ntid njid).joins = db.joins ++ [⟨njid, tid, pid⟩] ∧
        (∀ j ∈ db.joins, ¬(j.tag_id = tid ∧ j.point_id = pid)) ∧
        (∃ t ∈ (tag_point db pid n c ntid njid).tags, t.id = tid)) := by
  constructor
  · rw [tag_point_tags]
    rcases hf : find_tag db n c with _ | t
    · exact ⟨_, rfl⟩
    · exact ⟨[], by simp⟩
  · unfold tag_point
    rcases hf : find_tag db n c with _ | t
    · dsimp only
      rcases c with _ | ⟨v, _ | sv⟩ <;> dsimp only <;> split
      all_goals first
        | exact Or.inl rfl
        | (next hcond =>
            exact Or.inr ⟨ntid, rfl, fresh_of_not_isSome hcond,
              ⟨_, List.mem_append_right _ (List.mem_singleton.mpr rfl), rfl⟩⟩)
    · dsimp only
      split
      · exact Or.inl rfl
      · next hcond =>
        exact Or.inr ⟨t.id, rfl, fresh_of_not_isSome hcond, ⟨t, find_tag_mem hf, rfl⟩⟩

/-- C9 counterexample: with only the valued tag (x, v) in the table, tagging
    point 7 with name x and no value creates no new tag row and attaches the
    join to the valued tag, although no tag with the exact pair (x, no value)
    exists; so the pre-insert lookup is not by the exact (name, value) pair
    in the no-value case. -/
theorem C9_counterexample :
    (∀ t ∈ (⟨[], [⟨1, "x", some "v", none⟩], []⟩ : Db).tags,
      ¬(t.name = "x" ∧ t.value = none)) ∧
    (tag_point ⟨[], [⟨1, "x", some "v", none⟩], []⟩ 7 "x" none 2 3).tags
      = [⟨1, "x", some "v", none⟩] ∧
    (tag_point ⟨[], [⟨1, "x", some "v", none⟩], []⟩ 7 "x" none 2 3).joins
      = [⟨3, 1, 7⟩] := by
  refine ⟨by decide, by decide, by decide⟩

/-- C9 amended: tag_point looks an existing tag up by name and value when a
    value is supplied, but by name alone when no value is supplied; a new tag
    row is appended exactly when that lookup finds nothing, and repeating the
    same tag_point never adds another tag row. -/
theorem C9_amended_tag_reuse (db : Db) (pid : Int) (n : String) (c : TagContent)
    (ntid njid : Int) :
    (∀ v sv, c = some (v, sv) →
      ((∃ t ∈ db.tags, t.name = n ∧ t.value = some v) →
        (tag_point db pid n c ntid njid).tags = db.tags) ∧
      ((¬∃ t ∈ db.tags, t.name = n ∧ t.value = some v) →
        (tag_point db pid n c ntid njid).tags = db.tags ++ [⟨ntid, n, some v, sv⟩])) ∧
    (c = none →
      ((∃ t ∈ db.tags, t.name = n) → (tag_point db pid n c ntid njid).tags = db.tags) ∧
      ((¬∃ t ∈ db.tags, t.name = n) →
        (tag_point db pid n c ntid njid).tags = db.tags ++ [⟨ntid, n, none, none⟩])) ∧
    (∀ pid2 ntid2 njid2,
      (tag_point (tag_point db pid n c ntid njid) pid2 n c ntid2 njid2).tags
        = (tag_point db pid n c ntid njid).tags) := by
  have hval : ∀ (db' : Db) (v : String) (sv : Option Int) (pid' ntid' njid' : Int),
      ((∃ t ∈ db'.tags, t.name = n ∧ t.value = some v) →
        (tag_point db' pid' n (some (v, sv)) ntid' njid').tags = db'.tags) ∧
      ((¬∃ t ∈ db'.tags, t.name = n ∧ t.value = some v) →
        (tag_point db' pid' n (some (v, sv)) ntid' njid').tags
          = db'.tags ++ [⟨ntid', n, some v, sv⟩]) := by
    intro db' v sv pid' ntid' njid'
    constructor
    · intro hex
      rw [tag_point_tags]
      rcases hf : find_tag db' n (some (v, sv)) with _ | t
      · exact absurd hex (find_tag_value_none.mp hf)
      · rfl
    · intro hnex
      rw [tag_point_tags, find_tag_value_none.mpr hnex]
      rcases sv with _ | s <;> rfl
  have hnov : ∀ (db' : Db) (pid' ntid' njid' : Int),
      ((∃ t ∈ db'.tags, t.name = n) →
        (tag_point db' pid' n none ntid' njid').tags = db'.tags) ∧
      ((¬∃ t ∈ db'.tags, t.name = n) →
        (tag_point db' pid' n none ntid' njid').tags = db'.tags ++ [⟨ntid', n, none, none⟩]) := by
    intro db' pid' ntid' njid'
    constructor
    · intro hex
      rw [tag_point_tags]
      rcases hf : find_tag db' n none with _ | t
      · exact absurd hex (find_tag_noval_none.mp hf)
      · rfl
    · intro hnex
      rw [tag_point_tags, find_tag_noval_none.mpr hnex]
  refine ⟨?_, ?_, ?_⟩
  · intro v sv hc
    subst hc
    exact hval db v sv pid ntid njid
  · intro hc
    subst hc
    exact hnov db pid ntid njid
  · intro pid2 ntid2 njid2
    rcases c with _ | ⟨v, sv⟩
    · by_cases hex : ∃ t ∈ db.tags, t.name = n
      · have h1 := (hnov db pid ntid njid).1 hex
        have h2 := (hnov (tag_point db pid n none ntid njid) pid2 ntid2 njid2).1
          (by rw [h1]; exact hex)
        rw [h2]
      · have h1 := (hnov db pid ntid njid).2 hex
        have h2 := (hnov (tag_point db pid n none ntid njid) pid2 ntid2 njid2).1
          (by rw [h1]; exact ⟨⟨ntid, n, none, none⟩, by simp, rfl⟩)
        rw [h2]
    · by_cases hex : ∃ t ∈ db.tags, t.name = n ∧ t.value = some v
      · have h1 := (hval db v sv pid ntid njid).1 hex
        have h2 := (hval (tag_point db pid n (some (v, sv)) ntid njid) v sv pid2 ntid2 njid2).1
          (by rw [h1]; exact hex)
        rw [h2]
      · have h1 := (hval db v sv pid ntid njid).2 hex
        have h2 := (hval (tag_point db pid n (some (v, sv)) ntid njid) v sv pid2 ntid2 njid2).1
          (by rw [h1]; exact ⟨⟨ntid, n, some v, sv⟩, by simp, rfl, rfl⟩)
        rw [h2]

/-- C9 witness: repeated tagging with the same name and value at a concrete
    database. -/
theorem C9_witness :
    (tag_point (tag_point dbEmpty 7 "k" (some ("v", none)) 1 2) 7 "k" (some ("v", none)) 3 4).tags
      = (tag_point dbEmpty 7 "k" (some ("v", none)) 1 2).tags ∧
    (tag_point dbEmpty 7 "k" (some ("v", none)) 1 2).tags = [⟨1, "k", some "v", none⟩] := by
  constructor
  · exact (C9_amended_tag_reuse dbEmpty 7 "k" (some ("v", none)) 1 2).2.2 7 3 4
  · decide

/-! The join-table invariant, propositionally, and its preservation. -/

/-- Propositional form of the join invariant of joinsWF. -/
def JoinsWFP (db : Db) : Prop :=
  (∀ j ∈ db.joins, (∃ p ∈ db.points, p.id = j.point_id) ∧ ∃ t ∈ db.tags, t.id = j.tag_id) ∧
  db.joins.Pairwise (fun a b => ¬(b.point_id = a.point_id ∧ b.tag_id = a.tag_id))

/-- The point id is present in the points table. -/
def PidIn (db : Db) (pid : Int) : Prop := ∃ p ∈ db.points, p.id = pid

theorem pairsOk_iff : ∀ l : List Join, pairsOk l = true ↔
    l.Pairwise (fun a b => ¬(b.point_id = a.point_id ∧ b.tag_id = a.tag_id)) := by
  intro l
  induction l with
  | nil => simp [pairsOk]
  | cons j t ih =>
    simp only [pairsOk, Bool.and_eq_true, List.all_eq_true, List.pairwise_cons, ih]
    constructor
    · rintro ⟨h1, h2⟩
      refine ⟨fun k hk => ?_, h2⟩
      have h3 := h1 k hk
      intro hc
      rw [hc.1, hc.2] at h3
      simp at h3
    · rintro ⟨h1, h2⟩
      refine ⟨fun k hk => ?_, h2⟩
      have h3 := h1 k hk
      by_cases hp : k.point_id = j.point_id
      · by_cases ht : k.tag_id = j.tag_id
        · exact absurd ⟨hp, ht⟩ h3
        · simp [ht]
      · simp [hp]

theorem joinsWF_iff (db : Db) : joinsWF db = true ↔ JoinsWFP db := by
  unfold joinsWF JoinsWFP
  rw [Bool.and_eq_true, pairsOk_iff]
  constructor
  · rintro ⟨h1, h2⟩
    refine ⟨?_, h2⟩
    intro j hj
    have h3 := List.all_eq_true.mp h1 j hj
    simp only [Bool.and_eq_true, List.any_eq_true, beq_iff_eq] at h3
    exact h3
  · rintro ⟨h1, h2⟩
    refine ⟨?_, h2⟩
    rw [List.all_eq_true]
    intro j hj
    simp only [Bool.and_eq_true, List.any_eq_true, beq_iff_eq]
    exact h1 j hj

theorem JoinsWFP_tag_point {db : Db} (h : JoinsWFP db) {pid : Int} (hpid : PidIn db pid)
    (n : String) (c : TagContent) (ntid njid : Int) :
    JoinsWFP (tag_point db pid n c ntid njid) ∧ PidIn (tag_point db pid n c ntid njid) pid := by
  obtain ⟨⟨nt, htags⟩, hjoins⟩ := tag_point_spec db pid n c ntid njid
  have hpts := tag_point_points db pid n c ntid njid
  refine ⟨⟨?_, ?_⟩, ?_⟩
  · intro j hj
    rcases hjoins with hj2 | ⟨tid, hj2, hfresh, tmem⟩
    · rw [hj2] at hj
      obtain ⟨⟨p, hp, hp2⟩, ⟨t, ht, ht2⟩⟩ := h.1 j hj
      exact ⟨⟨p, by rw [hpts]; exact hp, hp2⟩,
             ⟨t, by rw [htags]; exact List.mem_append_left _ ht, ht2⟩⟩
    · rw [hj2] at hj
      rcases List.mem_append.mp hj with hj3 | hj3
      · obtain ⟨⟨p, hp, hp2⟩, ⟨t, ht, ht2⟩⟩ := h.1 j hj3
        exact ⟨⟨p, by rw [hpts]; exact hp, hp2⟩,
               ⟨t, by rw [htags]; exact List.mem_append_left _ ht, ht2⟩⟩
      · rw [List.mem_singleton] at hj3
        subst hj3
        obtain ⟨p, hp, hp2⟩ := hpid
        obtain ⟨t, ht, ht2⟩ := tmem
        exact ⟨⟨p, by rw [hpts]; exact hp, hp2⟩, ⟨t, ht, ht2⟩⟩
  · rcases hjoins with hj2 | ⟨tid, hj2, hfresh, tmem⟩
    · rw [hj2]
      exact h.2
    · rw [hj2, List.pairwise_append]
      refine ⟨h.2, by simp, ?_⟩
      intro a ha b hb
      rw [List.mem_singleton] at hb
      subst hb
      intro hc
      exact hfresh a ha ⟨hc.2.symm, hc.1.symm⟩
  · obtain ⟨p, hp, hp2⟩ := hpid
    exact ⟨p, by rw [hpts]; exact hp, hp2⟩

theorem map_id_preserve {l : List Point} {f : Point → Point} (hf : ∀ q, (f q).id = q.id)
    (x : Int) : (∃ p ∈ l.map f, p.id = x) ↔ ∃ p ∈ l, p.id = x := by
  simp only [List.mem_map]
  constructor
  · rintro ⟨p, ⟨q, hq, rfl⟩, hid⟩
    exact ⟨q, hq, by rw [← hf q]; exact hid⟩
  · rintro ⟨q, hq, hid⟩
    exact ⟨f q, ⟨q, hq, rfl⟩, by rw [hf q]; exact hid⟩

theorem JoinsWFP_setPath {db : Db} (h : JoinsWFP db) {pid : Int} (hpid : PidIn db pid)
    (pid2 : Int) (np : Option String) :
    JoinsWFP (setPointPath db pid2 np) ∧ PidIn (setPointPath db pid2 np) pid := by
  have hf : ∀ q : Point, ((fun q : Point =>
      if q.id = pid2 then { q with path := np } else q) q).id = q.id := by
    intro q
    dsimp only
    split <;> rfl
  refine ⟨⟨?_, h.2⟩, (map_id_preserve hf pid).mpr hpid⟩
  intro j hj
  obtain ⟨h1, h2⟩ := h.1 j hj
  exact ⟨(map_id_preserve hf _).mpr h1, h2⟩

theorem JoinsWFP_setHash {db : Db} (h : JoinsWFP db) {pid : Int} (hpid : PidIn db pid)
    (pid2 : Int) (nh : String) :
    JoinsWFP (setPointHash db pid2 nh) ∧ PidIn (setPointHash db pid2 nh) pid := by
  have hf : ∀ q : Point, ((fun q : Point =>
      if q.id = pid2 then { q with hash := nh } else q) q).id = q.id := by
    intro q
    dsimp only
    split <;> rfl
  refine ⟨⟨?_, h.2⟩, (map_id_preserve hf pid).mpr hpid⟩
  intro j hj
  obtain ⟨h1, h2⟩ := h.1 j hj
  exact ⟨(map_id_preserve hf _).mpr h1, h2⟩

theorem runTags_preserves : ∀ (ts : List ((String × TagContent) × Int × Int)) {db : Db}
    {pid : Int}, JoinsWFP db → PidIn db pid →
    JoinsWFP (runTags db pid ts) ∧ PidIn (runTags db pid ts) pid := by
  intro ts
  induction ts with
  | nil => intro db pid h1 h2; exact ⟨h1, h2⟩
  | cons e rest ih =>
    intro db pid h1 h2
    have h3 := JoinsWFP_tag_point h1 h2 e.1.1 e.1.2 e.2.1 e.2.2
    exact ih h3.1 h3.2

theorem JoinsWFP_points_append {db : Db} (h : JoinsWFP db) (ps : List Point) :
    JoinsWFP { db with points := db.points ++ ps } := by
  refine ⟨?_, h.2⟩
  intro j hj
  obtain ⟨⟨p, hp, hp2⟩, ht⟩ := h.1 j hj
  exact ⟨⟨p, List.mem_append_left _ hp, hp2⟩, ht⟩

theorem JoinsWFP_runAdd {db : Db} (h : JoinsWFP db) (d : AddData) :
    JoinsWFP (runAdd db d) := by
  unfold runAdd
  have hchain : ∀ (db1 : Db) (pid : Int), JoinsWFP db1 → PidIn db1 pid →
      JoinsWFP (setPointHash
        (runTags (setPointPath (runTags db1 pid d.manual) pid (some d.path_str)) pid d.auto)
        pid d.hash) := by
    intro db1 pid h1 h2
    have h3 := runTags_preserves d.manual h1 h2
    have h4 := JoinsWFP_setPath h3.1 h3.2 pid (some d.path_str)
    have h5 := runTags_preserves d.auto h4.1 h4.2
    exact (JoinsWFP_setHash h5.1 h5.2 pid d.hash).1
  rcases hbp : db.points.find? (fun q => q.path == some d.path_str) with _ | q
  · rcases hbh : db.points.find? (fun q => q.hash == d.hash) with _ | q
    · rw [hbp, hbh]
      refine hchain _ _ (JoinsWFP_points_append h _) ?_
      exact ⟨⟨d.new_pid, d.name, some d.path_str, d.hash, d.dir⟩,
        List.mem_append_right _ (List.mem_singleton.mpr rfl), rfl⟩
    · rw [hbp, hbh]
      exact hchain _ _ h ⟨q, List.mem_of_find?_eq_some hbh, rfl⟩
  · rw [hbp]
    exact hchain _ _ h ⟨q, List.mem_of_find?_eq_some hbp, rfl⟩

theorem JoinsWFP_runAll : ∀ (cmds : List Cmd) {db : Db}, JoinsWFP db → validSeq db cmds →
    JoinsWFP (runAll db cmds) := by
  intro cmds
  induction cmds with
  | nil => intro db h _; exact h
  | cons c rest ih =>
    intro db h hv
    obtain ⟨hc, hrest⟩ := hv
    refine ih ?_ hrest
    cases c with
    | tagc pid n cc ntid njid => exact (JoinsWFP_tag_point h hc n cc ntid njid).1
    | addc d => exact JoinsWFP_runAdd h d

/-- C7 counterexample: the single command tag 5 t on the empty index inserts
    a join whose point id 5 references no point row, so the claimed invariant
    fails after a sequence of add and tag commands. -/
theorem C7_counterexample :
    (runAll dbEmpty [Cmd.tagc 5 "t" none 1 2]).points = [] ∧
    (runAll dbEmpty [Cmd.tagc 5 "t" none 1 2]).joins = [⟨2, 1, 5⟩] ∧
    joinsWF (runAll dbEmpty [Cmd.tagc 5 "t" none 1 2]) = false := by
  refine ⟨by decide, by decide, by decide⟩

/-- C7 amended: after any sequence of add and tag commands from the empty
    index in which every tag command names a point id present at that moment,
    every join row references a present point id and a present tag id and no
    two join rows share the same point and tag pair (the pair uniqueness being
    enforced by the pre-insert check of tag_point). -/
theorem C7_amended_join_invariant (cmds : List Cmd) (hv : validSeq dbEmpty cmds) :
    joinsWF (runAll dbEmpty cmds) = true := by
  rw [joinsWF_iff]
  exact JoinsWFP_runAll cmds ((joinsWF_iff dbEmpty).mp (by decide)) hv

/-- C7 witness: one concrete add command establishing the invariant. -/
theorem C7_witness :
    validSeq dbEmpty [Cmd.addc ⟨"f", "/f", "h", false, 9, [(("k", none), 5, 6)], []⟩] ∧
    joinsWF (runAll dbEmpty [Cmd.addc ⟨"f", "/f", "h", false, 9, [(("k", none), 5, 6)], []⟩])
      = true := by
  refine ⟨⟨trivial, trivial⟩, ?_⟩
  exact C7_amended_join_invariant _ ⟨trivial, trivial⟩

/-! Read-path lemmas for the info file. -/

theorem readPayload_append2 (q : List String) (b a : String) :
    readPayload (q ++ [b, a]) =
      if a = "@flat-info" ∧ b = "@flatten" then some (joinSlash q) else none := by
  unfold readPayload
  rw [show (q ++ [b, a]).reverse = a :: b :: q.reverse by simp]
  dsimp only
  rw [List.reverse_reverse]

theorem readPayload_eq_some {p : List String} {s : String} :
    readPayload p = some s ↔ ∃ f, p = f ++ ["@flatten", "@flat-info"] ∧ s = joinSlash f := by
  constructor
  · intro h
    rcases hrev : p.reverse with _ | ⟨a, rest1⟩
    · have hp : p = [] := by simpa using congrArg List.reverse hrev
      subst hp
      simp [readPayload] at h
    · rcases rest1 with _ | ⟨b, rest⟩
      · have hp : p = [a] := by simpa using congrArg List.reverse hrev
        subst hp
        simp [readPayload] at h
      · have hp : p = rest.reverse ++ [b, a] := by simpa using congrArg List.reverse hrev
        subst hp
        rw [readPayload_append2] at h
        split at h
        · next hcond =>
          injection h with hs
          exact ⟨rest.reverse, by rw [hcond.1, hcond.2], hs.symm⟩
        · cases h
  · rintro ⟨f, rfl, rfl⟩
    rw [readPayload_append2 f "@flatten" "@flat-info"]
    simp

theorem ffs_read_none {st : St} {ino fh : Nat} (h : read_fh st fh (some ino) = none) :
    ffs_read st ino fh = none := by
  unfold ffs_read
  rw [h]

theorem ffs_read_some {st : St} {ino fh : Nat} {p : List String}
    (h : read_fh st fh (some ino) = some p) : ffs_read st ino fh = readPayload p := by
  unfold ffs_read
  rw [h]

/-- C5: a read upcall returns data exactly when the path resolved through the
    file-handle table (with inode fallback) ends with the flatten marker
    followed by the info-file component, in which case the payload is the
    preceding filter components joined by slashes (no leading slash, no
    trailing newline); every other read path returns the not-found error;
    moreover every regular-file attribute produced by internal_lookup belongs
    to such a path and its size is exactly the byte length of the joined
    filter string. -/
theorem C5_read_flat_info :
    (∀ (st : St) (ino fh : Nat) (s : String),
      ffs_read st ino fh = some s ↔
        ∃ f, read_fh st fh (some ino) = some (f ++ ["@flatten", "@flat-info"]) ∧
          s = joinSlash f) ∧
    (∀ (db : Db) (st : St) (path : List String) (mpi : Option Nat) (i sz blk : Nat) (st2 : St),
      internal_lookup db st path mpi = (.fileAttr i sz blk, st2) →
      ∃ f, path = f ++ ["@flatten", "@flat-info"] ∧ sz = byteLen (joinSlash f)) := by
  constructor
  · intro st ino fh s
    rcases hrf : read_fh st fh (some ino) with _ | p
    · rw [ffs_read_none hrf]
      constructor
      · intro h
        cases h
      · rintro ⟨f, hf, _⟩
        cases hf
    · rw [ffs_read_some hrf, readPayload_eq_some]
      constructor
      · rintro ⟨f, rfl, hs⟩
        exact ⟨f, rfl, hs⟩
      · rintro ⟨f, hf, hs⟩
        injection hf with hf
        exact ⟨f, hf, hs⟩
  · intro db st path mpi i sz blk st2 h
    unfold internal_lookup at h
    rcases hp : parsePath path with ⟨fns, flns, qns⟩ | pns
    · rw [hp] at h
      dsimp only at h
      rcases hl : lookup_point_by_name db qns with _ | pt
      · rw [hl] at h
        dsimp only at h
        split at h
        · simp at h
        · split at h
          · next hfl =>
            obtain ⟨hn, hc, hnf⟩ := parsePath_flattened_inv hp
            rw [Prod.mk.injEq] at h
            obtain ⟨h1, h2⟩ := h
            injection h1 with hi hsz hblk
            refine ⟨fns, ?_, ?_⟩
            · rw [hn, hfl]
            · rw [← hsz, size_formula]
          · repeat' (split at h)
            all_goals simp at h
      · rw [hl] at h
        dsimp only at h
        repeat' (split at h)
        all_goals simp at h
    · rw [hp] at h
      dsimp only at h
      repeat' (split at h)
      all_goals simp at h

/-- C5 witness: a concrete read through a handle and the matching file
    attribute at a concrete lookup. -/
theorem C5_witness :
    ffs_read ((new_fh initSt ["k", "@flatten", "@flat-info"]).2) 9 1 = some "k" ∧
    ∃ f, (["k", "@flatten", "@flat-info"] : List String) = f ++ ["@flatten", "@flat-info"] ∧
      1 = byteLen (joinSlash f) := by
  constructor
  · exact (C5_read_flat_info.1 ((new_fh initSt ["k", "@flatten", "@flat-info"]).2) 9 1 "k").mpr
      ⟨["k"], by decide, by decide⟩
  · exact C5_read_flat_info.2 dbEmpty initSt ["k", "@flatten", "@flat-info"] none 2 1 1
      (internal_lookup dbEmpty initSt ["k", "@flatten", "@flat-info"] none).2 (by decide)

/-! Membership characterization of the query engine. -/

theorem mem_pushNew {y x : Int} {l : List Int} : y ∈ pushNew x l ↔ y ∈ l ∨ y = x := by
  unfold pushNew
  split
  · next hcon =>
    constructor
    · exact Or.inl
    · rintro (h | rfl)
      · exact h
      · simpa [List.contains] using hcon
  · simp [List.mem_append]

theorem mem_foldl_pushNew_join : ∀ (js : List Join) (acc : List Int) (y : Int),
    y ∈ js.foldl (fun a j => pushNew j.point_id a) acc ↔
      y ∈ acc ∨ ∃ j ∈ js, j.point_id = y := by
  intro js
  induction js with
  | nil => intro acc y; simp
  | cons j t ih =>
    intro acc y
    simp only [List.foldl_cons]
    rw [ih, mem_pushNew]
    simp only [List.mem_cons]
    constructor
    · rintro ((h | h) | h)
      · exact Or.inl h
      · exact Or.inr ⟨j, Or.inl rfl, h.symm⟩
      · obtain ⟨k, hk, hk2⟩ := h
        exact Or.inr ⟨k, Or.inr hk, hk2⟩
    · rintro (h | ⟨k, (rfl | hk), hk2⟩)
      · exact Or.inl (Or.inl h)
      · exact Or.inl (Or.inr hk2.symm)
      · exact Or.inr ⟨k, hk, hk2⟩

theorem mem_pointsForPart {db : Db} : ∀ (T : List Tag) (acc : List Int) (y : Int),
    y ∈ T.foldl (fun acc t => (db.joins.filter (fun j => j.tag_id == t.id)).foldl
        (fun acc2 j => pushNew j.point_id acc2) acc) acc ↔
      y ∈ acc ∨ ∃ t ∈ T, ∃ j ∈ db.joins, j.tag_id = t.id ∧ j.point_id = y := by
  intro T
  induction T with
  | nil => intro acc y; simp
  | cons t ts ih =>
    intro acc y
    simp only [List.foldl_cons]
    rw [ih, mem_foldl_pushNew_join]
    constructor
    · rintro ((h | ⟨j, hj, hj2⟩) | ⟨u, hu, j, hj, hj2, hj3⟩)
      · exact Or.inl h
      · rw [List.mem_filter] at hj
        exact Or.inr ⟨t, List.mem_cons_self t ts, j, hj.1, by simpa using hj.2, hj2⟩
      · exact Or.inr ⟨u, List.mem_cons_of_mem t hu, j, hj, hj2, hj3⟩
    · rintro (h | ⟨u, hu, j, hj, hj2, hj3⟩)
      · exact Or.inl (Or.inl h)
      · rcases List.mem_cons.mp hu with rfl | hu
        · exact Or.inl (Or.inr ⟨j, List.mem_filter.mpr ⟨hj, by simp [hj2]⟩, hj3⟩)
        · exact Or.inr ⟨u, hu, j, hj, hj2, hj3⟩

theorem mem_foldl_filter : ∀ (ls : List (List Int)) (acc : List Int) (y : Int),
    y ∈ ls.foldl (fun acc l => acc.filter (fun x => l.contains x)) acc ↔
      y ∈ acc ∧ ∀ l ∈ ls, y ∈ l := by
  intro ls
  induction ls with
  | nil => intro acc y; simp
  | cons l t ih =>
    intro acc y
    simp only [List.foldl_cons]
    rw [ih]
    simp only [List.mem_filter, List.mem_cons, List.contains]
    constructor
    · rintro ⟨⟨h1, h2⟩, h3⟩
      exact ⟨h1, fun m hm => by
        rcases hm with rfl | hm
        · simpa using h2
        · exact h3 m hm⟩
    · rintro ⟨h1, h2⟩
      refine ⟨⟨h1, by simpa using h2 l (Or.inl rfl)⟩, fun m hm => h2 m (Or.inr hm)⟩

theorem mem_foldl_union : ∀ (ls : List (List Int)) (acc : List Int) (y : Int),
    y ∈ ls.foldl (fun acc l => l.foldl (fun a x => pushNew x a) acc) acc ↔
      y ∈ acc ∨ ∃ l ∈ ls, y ∈ l := by
  intro ls
  have hone : ∀ (l : List Int) (acc : List Int) (y : Int),
      y ∈ l.foldl (fun a x => pushNew x a) acc ↔ y ∈ acc ∨ y ∈ l := by
    intro l
    induction l with
    | nil => intro acc y; simp
    | cons x xs ih =>
      intro acc y
      simp only [List.foldl_cons]
      rw [ih, mem_pushNew]
      simp only [List.mem_cons]
      tauto
  induction ls with
  | nil => intro acc y; simp
  | cons l t ih =>
    intro acc y
    simp only [List.foldl_cons]
    rw [ih, hone]
    simp only [List.mem_cons]
    constructor
    · rintro ((h | h) | ⟨m, hm, hm2⟩)
      · exact Or.inl h
      · exact Or.inr ⟨l, Or.inl rfl, h⟩
      · exact Or.inr ⟨m, Or.inr hm, hm2⟩
    · rintro (h | ⟨m, (rfl | hm), hm2⟩)
      · exact Or.inl (Or.inl h)
      · exact Or.inl (Or.inr hm2)
      · exact Or.inr ⟨m, hm, hm2⟩

/-- Membership of a point in the query result for a non-empty component list:
    the point is a table row and, for every component, some disjunct matches
    some tag joined to it. -/
theorem mem_gpbp {db : Db} {parts : List String} (hne : ¬parts = []) (p : Point) :
    p ∈ get_points_by_parts db parts ↔
      p ∈ db.points ∧ ∀ part ∈ parts, ∃ d ∈ splitOr part, ∃ t ∈ tagsForDisjunct db d,
        ∃ j ∈ db.joins, j.tag_id = t.id ∧ j.point_id = p.id := by
  unfold get_points_by_parts
  rw [if_neg hne]
  dsimp only
  rw [List.mem_filter]
  have hpp : ∀ y : Int,
      (((get_tags_by_parts db parts).map (pointsForPart db)).foldl
        (fun acc l => acc.filter (fun x => l.contains x))
        (((get_tags_by_parts db parts).map (pointsForPart db)).foldl
          (fun acc l => l.foldl (fun a x => pushNew x a) acc) [])).contains y = true ↔
      ∀ part ∈ parts, ∃ d ∈ splitOr part, ∃ t ∈ tagsForDisjunct db d,
        ∃ j ∈ db.joins, j.tag_id = t.id ∧ j.point_id = y := by
    intro y
    rw [show ∀ l : List Int, (l.contains y = true ↔ y ∈ l) from fun l => by
      simp [List.contains]]
    rw [mem_foldl_filter, mem_foldl_union]
    have hpart : ∀ m ∈ (get_tags_by_parts db parts).map (pointsForPart db),
        ∃ part ∈ parts, m = pointsForPart db (((splitOr part).map (tagsForDisjunct db)).flatten)
        := by
      intro m hm
      obtain ⟨T, hT, hT2⟩ := List.mem_map.mp hm
      obtain ⟨part, hpart, hpart2⟩ := List.mem_map.mp hT
      exact ⟨part, hpart, by rw [← hT2, ← hpart2]⟩
    have hmemPFP : ∀ part : String,
        (y ∈ pointsForPart db (((splitOr part).map (tagsForDisjunct db)).flatten)) ↔
        (∃ d ∈ splitOr part, ∃ t ∈ tagsForDisjunct db d,
          ∃ j ∈ db.joins, j.tag_id = t.id ∧ j.point_id = y) := by
      intro part
      unfold pointsForPart
      rw [mem_pointsForPart]
      simp only [List.mem_flatten, List.mem_map]
      constructor
      · rintro (h | ⟨t, ⟨T, ⟨d, hd, rfl⟩, hT⟩, j, hj, hj2, hj3⟩)
        · simp at h
        · exact ⟨d, hd, t, hT, j, hj, hj2, hj3⟩
      · rintro ⟨d, hd, t, ht, j, hj, hj2, hj3⟩
        exact Or.inr ⟨t, ⟨tagsForDisjunct db d, ⟨d, hd, rfl⟩, ht⟩, j, hj, hj2, hj3⟩
    constructor
    · rintro ⟨hex, hall⟩ part hp2
      rw [← hmemPFP part]
      refine hall _ (List.mem_map.mpr ⟨((splitOr part).map (tagsForDisjunct db)).flatten, ?_, rfl⟩)
      unfold get_tags_by_parts
      exact List.mem_map.mpr ⟨part, hp2, rfl⟩
    · intro hall
      have hall2 : ∀ m ∈ (get_tags_by_parts db parts).map (pointsForPart db), y ∈ m := by
        intro m hm
        obtain ⟨part, hp2, rfl⟩ := hpart m hm
        rw [hmemPFP part]
        exact hall part hp2
      refine ⟨?_, hall2⟩
      rcases parts with _ | ⟨p0, prest⟩
      · exact absurd rfl hne
      · refine Or.inr ⟨pointsForPart db (((splitOr p0).map (tagsForDisjunct db)).flatten), ?_, ?_⟩
        · refine List.mem_map.mpr ⟨((splitOr p0).map (tagsForDisjunct db)).flatten, ?_, rfl⟩
          unfold get_tags_by_parts
          exact List.mem_map.mpr ⟨p0, List.mem_cons_self _ _, rfl⟩
        · rw [hmemPFP p0]
          exact hall p0 (List.mem_cons_self _ _)
  rw [hpp p.id]

/-- C2 counterexample: with a single tag literally named x-space-or joined to
    point 1, the component built from the expressions a equal to that tag
    name and b equal to y re-splits at the seam, so the union law fails. -/
theorem C2_counterexample :
    ("x or" ++ " or " ++ "y" : String) = "x or or y" ∧
    (∃ p ∈ get_points_by_parts
        ⟨[⟨1, "p", some "/p", "h", false⟩], [⟨10, "x or", none, none⟩], [⟨100, 10, 1⟩]⟩
        ["x or"], p.id = 1) ∧
    (∀ p ∈ get_points_by_parts
        ⟨[⟨1, "p", some "/p", "h", false⟩], [⟨10, "x or", none, none⟩], [⟨100, 10, 1⟩]⟩
        ["x or or y"], p.id ≠ 1) := by
  refine ⟨by decide, by decide, by decide⟩

/-- C2 amended: as sets of point ids, the two-component query is always the
    intersection of the one-component queries; the one-component disjunction
    equals the union provided the combined component re-splits exactly into
    the disjuncts of the first expression followed by those of the second
    (which holds whenever neither side contains or abuts the four-character
    separator); in general, for a non-empty component list, disjuncts are
    unioned within one component and components are intersected. -/
theorem C2_amended_algebra (db : Db) (a b : String) :
    (splitOr (a ++ " or " ++ b) = splitOr a ++ splitOr b →
      ∀ i : Int, (∃ p ∈ get_points_by_parts db [a ++ " or " ++ b], p.id = i) ↔
        ((∃ p ∈ get_points_by_parts db [a], p.id = i) ∨
         (∃ p ∈ get_points_by_parts db [b], p.id = i))) ∧
    (∀ i : Int, (∃ p ∈ get_points_by_parts db [a, b], p.id = i) ↔
        ((∃ p ∈ get_points_by_parts db [a], p.id = i) ∧
         (∃ p ∈ get_points_by_parts db [b], p.id = i))) ∧
    (∀ (parts : List String) (i : Int), ¬parts = [] →
      ((∃ p ∈ get_points_by_parts db parts, p.id = i) ↔
        ((∃ p ∈ db.points, p.id = i) ∧
         ∀ part ∈ parts, ∃ d ∈ splitOr part, ∃ t ∈ tagsForDisjunct db d,
           ∃ j ∈ db.joins, j.tag_id = t.id ∧ j.point_id = i))) := by
  have hgen : ∀ (parts : List String) (i : Int), ¬parts = [] →
      ((∃ p ∈ get_points_by_parts db parts, p.id = i) ↔
        ((∃ p ∈ db.points, p.id = i) ∧
         ∀ part ∈ parts, ∃ d ∈ splitOr part, ∃ t ∈ tagsForDisjunct db d,
           ∃ j ∈ db.joins, j.tag_id = t.id ∧ j.point_id = i)) := by
    intro parts i hne
    constructor
    · rintro ⟨p, hp, rfl⟩
      obtain ⟨h1, h2⟩ := (mem_gpbp hne p).mp hp
      exact ⟨⟨p, h1, rfl⟩, h2⟩
    · rintro ⟨⟨p, hp, rfl⟩, h2⟩
      exact ⟨p, (mem_gpbp hne p).mpr ⟨hp, h2⟩, rfl⟩
  refine ⟨?_, ?_, hgen⟩
  · intro hsplit i
    rw [hgen [a ++ " or " ++ b] i (by simp), hgen [a] i (by simp), hgen [b] i (by simp)]
    simp only [List.mem_cons, List.not_mem_nil, or_false, forall_eq, hsplit, List.mem_append]
    constructor
    · rintro ⟨hP, d, (hd | hd), rest⟩
      · exact Or.inl ⟨hP, d, hd, rest⟩
      · exact Or.inr ⟨hP, d, hd, rest⟩
    · rintro (⟨hP, d, hd, rest⟩ | ⟨hP, d, hd, rest⟩)
      · exact ⟨hP, d, Or.inl hd, rest⟩
      · exact ⟨hP, d, Or.inr hd, rest⟩
  · intro i
    rw [hgen [a, b] i (by simp), hgen [a] i (by simp), hgen [b] i (by simp)]
    simp only [List.mem_cons, List.not_mem_nil, or_false, or_imp, forall_and, forall_eq]
    constructor
    · rintro ⟨hP, ha, hb⟩
      exact ⟨⟨hP, ha⟩, ⟨hP, hb⟩⟩
    · rintro ⟨⟨hP, ha⟩, ⟨_, hb⟩⟩
      exact ⟨hP, ha, hb⟩

/-- C2 witness: the union law at a concrete database and separator-free
    expressions. -/
theorem C2_witness :
    splitOr ("ta" ++ " or " ++ "tb") = splitOr "ta" ++ splitOr "tb" ∧
    ((∃ p ∈ get_points_by_parts
        ⟨[⟨1, "p", some "/p", "h", false⟩], [⟨10, "ta", none, none⟩], [⟨100, 10, 1⟩]⟩
        ["ta" ++ " or " ++ "tb"], p.id = 1) ↔
      ((∃ p ∈ get_points_by_parts
          ⟨[⟨1, "p", some "/p", "h", false⟩], [⟨10, "ta", none, none⟩], [⟨100, 10, 1⟩]⟩
          ["ta"], p.id = 1) ∨
       (∃ p ∈ get_points_by_parts
          ⟨[⟨1, "p", some "/p", "h", false⟩], [⟨10, "ta", none, none⟩], [⟨100, 10, 1⟩]⟩
          ["tb"], p.id = 1))) := by
  refine ⟨by decide, ?_⟩
  exact (C2_amended_algebra
    ⟨[⟨1, "p", some "/p", "h", false⟩], [⟨10, "ta", none, none⟩], [⟨100, 10, 1⟩]⟩
    "ta" "tb").1 (by decide) 1

/-! The flatten directory test of internal_lookup as a least-element property. -/

theorem flatDirHit_iff {db : Db} {pq : List String} {fl : String} :
    flatDirHit db pq fl = true ↔
      ∃ p ∈ get_points_by_parts db pq, fl ∈ distTags db pq p ∧
        ∀ s ∈ distTags db pq p, strLe fl s = true := by
  unfold flatDirHit
  rw [List.any_eq_true]
  constructor
  · rintro ⟨p, hp, hpred⟩
    rw [beq_iff_eq] at hpred
    obtain ⟨h1, h2⟩ := sortStrsHeadIff.mp hpred
    exact ⟨p, hp, h1, h2⟩
  · rintro ⟨p, hp, h1, h2⟩
    refine ⟨p, hp, ?_⟩
    rw [beq_iff_eq]
    exact sortStrsHeadIff.mpr ⟨h1, h2⟩

/-- C1: for a flattened path whose combined component list does not resolve
    to a point by name, whose flat part is non-empty and not the single
    info-file component, and whose last flat component is not the directory
    marker, internal_lookup returns a directory attribute exactly when some
    point matched by the filter plus flat-parent query has the last flat
    component as its first distinguishing tag: the lexicographically least
    display string among those of its tags not literally contained in the
    query components; otherwise it returns the not-found error. -/
theorem C1_flatten_dir_iff (db : Db) (st : St) (filter fp : List String) (fl : String)
    (mpi : Option Nat)
    (hnof : "@flatten" ∉ filter)
    (hlook : lookup_point_by_name db (filter ++ (fp ++ [fl])) = none)
    (hinfo : ¬fp ++ [fl] = ["@flat-info"])
    (hdir : ¬fl = "@dir") :
    ((∃ i, (internal_lookup db st (filter ++ "@flatten" :: (fp ++ [fl])) mpi).1 = .dirAttr i) ↔
      ∃ p ∈ get_points_by_parts db (filter ++ fp),
        fl ∈ distTags db (filter ++ fp) p ∧
        ∀ s ∈ distTags db (filter ++ fp) p, strLe fl s = true) ∧
    ((¬∃ p ∈ get_points_by_parts db (filter ++ fp),
        fl ∈ distTags db (filter ++ fp) p ∧
        ∀ s ∈ distTags db (filter ++ fp) p, strLe fl s = true) →
      (internal_lookup db st (filter ++ "@flatten" :: (fp ++ [fl])) mpi).1 = .err) := by
  have hil : internal_lookup db st (filter ++ "@flatten" :: (fp ++ [fl])) mpi =
      (if flatDirHit db (filter ++ fp) fl then
        (.dirAttr (new_ino st (filter ++ "@flatten" :: (fp ++ [fl]))).1,
         (new_ino st (filter ++ "@flatten" :: (fp ++ [fl]))).2)
       else (.err, st)) := by
    unfold internal_lookup
    rw [parsePath_flattened hnof]
    dsimp only
    rw [hlook]
    dsimp only
    rw [if_neg (show ¬fp ++ [fl] = [] by simp), if_neg hinfo]
    rw [List.getLast?_concat, List.dropLast_concat]
    simp only [Option.getD_some]
    rw [if_neg hdir]
  refine ⟨?_, ?_⟩
  · rw [hil]
    by_cases hhit : flatDirHit db (filter ++ fp) fl
    · rw [if_pos hhit]
      constructor
      · intro _
        exact flatDirHit_iff.mp hhit
      · intro _
        exact ⟨(new_ino st (filter ++ "@flatten" :: (fp ++ [fl]))).1, rfl⟩
    · rw [if_neg hhit]
      constructor
      · rintro ⟨i, hi⟩
        simp at hi
      · intro hex
        exact absurd (flatDirHit_iff.mpr hex) (by simpa using hhit)
  · intro hnex
    rw [hil, if_neg (fun hh => hnex (flatDirHit_iff.mp hh))]

/-- C1 witness: a point with tags a and b directly below the flatten marker;
    a is its least distinguishing display string. -/
theorem C1_witness :
    ("@flatten" ∉ ([] : List String)) ∧
    lookup_point_by_name
      ⟨[⟨1, "f", some "/f", "h", false⟩], [⟨10, "a", none, none⟩, ⟨11, "b", none, none⟩],
        [⟨100, 10, 1⟩, ⟨101, 11, 1⟩]⟩ ([] ++ ([] ++ ["a"])) = none ∧
    ((∃ i, (internal_lookup
        ⟨[⟨1, "f", some "/f", "h", false⟩], [⟨10, "a", none, none⟩, ⟨11, "b", none, none⟩],
          [⟨100, 10, 1⟩, ⟨101, 11, 1⟩]⟩ initSt ([] ++ "@flatten" :: ([] ++ ["a"])) none).1
        = .dirAttr i) ↔
      ∃ p ∈ get_points_by_parts
        ⟨[⟨1, "f", some "/f", "h", false⟩], [⟨10, "a", none, none⟩, ⟨11, "b", none, none⟩],
          [⟨100, 10, 1⟩, ⟨101, 11, 1⟩]⟩ ([] ++ []),
        "a" ∈ distTags
          ⟨[⟨1, "f", some "/f", "h", false⟩], [⟨10, "a", none, none⟩, ⟨11, "b", none, none⟩],
            [⟨100, 10, 1⟩, ⟨101, 11, 1⟩]⟩ ([] ++ []) p ∧
        ∀ s ∈ distTags
          ⟨[⟨1, "f", some "/f", "h", false⟩], [⟨10, "a", none, none⟩, ⟨11, "b", none, none⟩],
            [⟨100, 10, 1⟩, ⟨101, 11, 1⟩]⟩ ([] ++ []) p, strLe "a" s = true) := by
  refine ⟨by decide, by decide, ?_⟩
  exact (C1_flatten_dir_iff
    ⟨[⟨1, "f", some "/f", "h", false⟩], [⟨10, "a", none, none⟩, ⟨11, "b", none, none⟩],
      [⟨100, 10, 1⟩, ⟨101, 11, 1⟩]⟩ initSt [] [] "a" none
    (by decide) (by decide) (by decide) (by decide)).1

/-! The flattened readdir fold: contribution of a point with no
    distinguishing tags and a present backing path. -/

theorem flatPointStep_empty (db : Db) (qnames path : List String)
    (acc : List String × List Entry × St) (p : Point)
    (hd : distTags db qnames p = []) (hp : p.path.isSome = true) :
    (flatPointStep db qnames path acc p).1 = acc.1 ∧
    (flatPointStep db qnames path acc p).2.1 =
      acc.2.1 ++ [((new_ino acc.2.2 (path ++ [p.name ++ "." ++ intToStr p.id])).1,
        if p.dir then FType.directory else FType.symlink,
        p.name ++ "." ++ intToStr p.id)] := by
  obtain ⟨pp, hpp⟩ := Option.isSome_iff_exists.mp hp
  have hs : sortStrs (distTags db qnames p) = [] := by rw [hd]; rfl
  constructor
  · unfold flatPointStep
    rw [hs, List.head?_nil, hpp]
  · unfold flatPointStep
    rw [hs, List.head?_nil, hpp]

theorem flatPointStep_entries_mono (db : Db) (qnames path : List String)
    (acc : List String × List Entry × St) (p : Point) :
    ∃ l, (flatPointStep db qnames path acc p).2.1 = acc.2.1 ++ l := by
  unfold flatPointStep
  rcases h1 : (sortStrs (distTags db qnames p)).head? with _ | ft
  · try rw [h1]
    rcases h2 : p.path with _ | pp
    · try rw [h2]
      exact ⟨[], (List.append_nil _).symm⟩
    · try rw [h2]
      exact ⟨_, rfl⟩
  · try rw [h1]
    dsimp only
    by_cases hc : acc.1.contains ft = true
    · rw [if_pos hc]
      exact ⟨[], (List.append_nil _).symm⟩
    · rw [if_neg hc]
      exact ⟨_, rfl⟩

theorem flat_fold_entries_mono (db : Db) (qnames path : List String) (ps : List Point) :
    ∀ acc : List String × List Entry × St,
      ∃ l, (ps.foldl (flatPointStep db qnames path) acc).2.1 = acc.2.1 ++ l := by
  induction ps with
  | nil => exact fun acc => ⟨[], (List.append_nil _).symm⟩
  | cons q rest ih =>
    intro acc
    rw [List.foldl_cons]
    obtain ⟨l1, h1⟩ := flatPointStep_entries_mono db qnames path acc q
    obtain ⟨l2, h2⟩ := ih (flatPointStep db qnames path acc q)
    exact ⟨l1 ++ l2, by rw [h2, h1, List.append_assoc]⟩

theorem flat_fold_mem (db : Db) (qnames path : List String) (p : Point)
    (hd : distTags db qnames p = []) (hp : p.path.isSome = true) :
    ∀ (ps : List Point) (acc : List String × List Entry × St), p ∈ ps →
      ∃ i, (i, (if p.dir then FType.directory else FType.symlink),
            p.name ++ "." ++ intToStr p.id) ∈
        (ps.foldl (flatPointStep db qnames path) acc).2.1 := by
  intro ps
  induction ps with
  | nil =>
    intro acc h
    exact absurd h (List.not_mem_nil p)
  | cons q rest ih =>
    intro acc hmem
    rw [List.foldl_cons]
    rcases List.mem_cons.mp hmem with heq | hrest
    · subst heq
      obtain ⟨l, hl⟩ :=
        flat_fold_entries_mono db qnames path rest (flatPointStep db qnames path acc p)

      refine ⟨(new_ino acc.2.2 (path ++ [p.name ++ "." ++ intToStr p.id])).1, ?_⟩
      rw [hl, (flatPointStep_empty db qnames path acc p hd hp).2]
      exact List.mem_append_left _
        (List.mem_append_right _ (List.mem_singleton.mpr rfl))
    · exact ih (flatPointStep db qnames path acc q) hrest

/-- C3 counterexample: a directory-backed point whose distinguishing tag list
    under the query is empty is listed in the flattened readdir as a
    directory entry named name.id, not as a symlink. -/
theorem C3_counterexample :
    lookup_point_by_name
      ⟨[⟨1, "d", some "/s/d", "h", true⟩], [⟨10, "t", none, none⟩], [⟨100, 10, 1⟩]⟩ ["t"]
      = none ∧
    (⟨1, "d", some "/s/d", "h", true⟩ : Point) ∈ get_points_by_parts
      ⟨[⟨1, "d", some "/s/d", "h", true⟩], [⟨10, "t", none, none⟩], [⟨100, 10, 1⟩]⟩ ["t"] ∧
    distTags ⟨[⟨1, "d", some "/s/d", "h", true⟩], [⟨10, "t", none, none⟩], [⟨100, 10, 1⟩]⟩
      ["t"] ⟨1, "d", some "/s/d", "h", true⟩ = [] ∧
    (⟨1, "d", some "/s/d", "h", true⟩ : Point).path.isSome = true ∧
    (readdir ⟨[⟨1, "d", some "/s/d", "h", true⟩], [⟨10, "t", none, none⟩], [⟨100, 10, 1⟩]⟩
        (new_ino initSt ["t", "@flatten"]).2 2 0).1 =
      .entries [(1, 1, FType.directory, "."), (1, 2, FType.directory, ".."),
                (3, 3, FType.regularFile, "@flat-info"), (4, 4, FType.directory, "d.1")] := by
  decide

/-- C3 amended: in a flattened readdir whose combined path does not name a
    point, a matched point with empty distinguishing tag list and a non-null
    backing path contributes exactly one entry named name.id, of directory
    kind when the point is a directory and of symlink kind otherwise. -/
theorem C3_amended_flat_entry_kind (db : Db) (st : St) (fns flns : List String) (p : Point)
    (hnof : "@flatten" ∉ fns)
    (hlook : lookup_point_by_name db (fns ++ flns) = none)
    (hp : p ∈ get_points_by_parts db (fns ++ flns))
    (hd : distTags db (fns ++ flns) p = [])
    (hpath : p.path.isSome = true) :
    (∀ acc : List String × List Entry × St,
      (flatPointStep db (fns ++ flns) (fns ++ "@flatten" :: flns) acc p).1 = acc.1 ∧
      (flatPointStep db (fns ++ flns) (fns ++ "@flatten" :: flns) acc p).2.1 =
        acc.2.1 ++
          [((new_ino acc.2.2
              ((fns ++ "@flatten" :: flns) ++ [p.name ++ "." ++ intToStr p.id])).1,
            if p.dir then FType.directory else FType.symlink,
            p.name ++ "." ++ intToStr p.id)]) ∧
    ∃ es, (computeEntries db st (fns ++ "@flatten" :: flns)).1 = some es ∧
      ∃ i, (i, (if p.dir then FType.directory else FType.symlink),
            p.name ++ "." ++ intToStr p.id) ∈ es := by
  constructor
  · intro acc
    exact flatPointStep_empty db (fns ++ flns) (fns ++ "@flatten" :: flns) acc p hd hpath
  · unfold computeEntries
    rw [parsePath_flattened hnof]
    dsimp only
    rw [hlook]
    dsimp only
    refine ⟨_, rfl, ?_⟩
    exact flat_fold_mem db (fns ++ flns) (fns ++ "@flatten" :: flns) p hd hpath _ _ hp

/-- C3 witness: a file-backed point tagged t, listed under the flatten
    directory of the query t as the symlink entry f.1. -/
theorem C3_witness :
    lookup_point_by_name
      ⟨[⟨1, "f", some "/f", "h", false⟩], [⟨10, "t", none, none⟩], [⟨100, 10, 1⟩]⟩
      (["t"] ++ []) = none ∧
    (⟨1, "f", some "/f", "h", false⟩ : Point) ∈ get_points_by_parts
      ⟨[⟨1, "f", some "/f", "h", false⟩], [⟨10, "t", none, none⟩], [⟨100, 10, 1⟩]⟩
      (["t"] ++ []) ∧
    distTags ⟨[⟨1, "f", some "/f", "h", false⟩], [⟨10, "t", none, none⟩], [⟨100, 10, 1⟩]⟩
      (["t"] ++ []) ⟨1, "f", some "/f", "h", false⟩ = [] ∧
    ∃ es, (computeEntries
        ⟨[⟨1, "f", some "/f", "h", false⟩], [⟨10, "t", none, none⟩], [⟨100, 10, 1⟩]⟩
        initSt (["t"] ++ "@flatten" :: [])).1 = some es ∧
      ∃ i, (i, (if (⟨1, "f", some "/f", "h", false⟩ : Point).dir then FType.directory
                else FType.symlink),
            (⟨1, "f", some "/f", "h", false⟩ : Point).name ++ "." ++
              intToStr (⟨1, "f", some "/f", "h", false⟩ : Point).id) ∈ es := by
  refine ⟨by decide, by decide, by decide, ?_⟩
  exact (C3_amended_flat_entry_kind
    ⟨[⟨1, "f", some "/f", "h", false⟩], [⟨10, "t", none, none⟩], [⟨100, 10, 1⟩]⟩
    initSt ["t"] [] ⟨1, "f", some "/f", "h", false⟩
    (by decide) (by decide) (by decide) (by decide) (by decide)).2

/-! The readdir cache: lookup after removal, and the two arms of readdir. -/

theorem alookup_aremove_self {α β : Type} [DecidableEq α] (k : α) (m : List (α × β)) :
    alookup k (aremove k m) = none := by
  induction m with
  | nil => rfl
  | cons kv rest ih =>
    obtain ⟨a, b⟩ := kv
    unfold aremove
    rw [List.filter_cons]
    by_cases h : a = k
    · rw [if_neg (by simp [h])]
      exact ih
    · rw [if_pos (by simp [h]), alookup_cons, if_neg h]
      exact ih

theorem readdir_hit (db : Db) (st : St) (ino k : Nat) (es : List Entry)
    (h : alookup ino st.dir_entries = some es) :
    readdir db st ino k = (.entries (replyList es k),
      if k = es.length then { st with dir_entries := aremove ino st.dir_entries } else st) := by
  unfold readdir
  rw [h]

theorem readdir_miss (db : Db) (st : St) (ino k : Nat) (es : List Entry)
    (hmiss : alookup ino st.dir_entries = none)
    (hcomp : (computeEntries db st ((alookup ino st.ino_to_path).getD [])).1 = some es) :
    readdir db st ino k = (.entries (replyList es k),
      if k = 0 then
        { (computeEntries db st ((alookup ino st.ino_to_path).getD [])).2 with
          dir_entries := (ino, es) ::
            (computeEntries db st ((alookup ino st.ino_to_path).getD [])).2.dir_entries }
      else (computeEntries db st ((alookup ino st.ino_to_path).getD [])).2) := by
  unfold readdir
  rw [hmiss]
  dsimp only
  rw [hcomp]

/-- C4: on a cache miss an offset-zero readdir computes the full entry list,
    replies with all of it and stores it under the inode; while the entry is
    cached, a readdir at offset k at most the length replies exactly the
    cached rows from position k on and evicts the entry precisely when k
    equals the length; after eviction (or on any miss) an offset-zero call
    recomputes from scratch and re-populates the cache. -/
theorem C4_readdir_cache (db : Db) (st : St) (ino : Nat) (es : List Entry)
    (hmiss : alookup ino st.dir_entries = none)
    (hcomp : (computeEntries db st ((alookup ino st.ino_to_path).getD [])).1 = some es) :
    (readdir db st ino 0).1 = .entries (replyList es 0) ∧
    alookup ino (readdir db st ino 0).2.dir_entries = some es ∧
    (∀ k, k ≤ es.length →
      (readdir db (readdir db st ino 0).2 ino k).1 = .entries (replyList es k) ∧
      alookup ino (readdir db (readdir db st ino 0).2 ino k).2.dir_entries =
        (if k = es.length then none else some es)) ∧
    (∀ st2 es2, alookup ino st2.dir_entries = none →
      (computeEntries db st2 ((alookup ino st2.ino_to_path).getD [])).1 = some es2 →
      (readdir db st2 ino 0).1 = .entries (replyList es2 0) ∧
      alookup ino (readdir db st2 ino 0).2.dir_entries = some es2) := by
  have key : ∀ (st2 : St) (es2 : List Entry), alookup ino st2.dir_entries = none →
      (computeEntries db st2 ((alookup ino st2.ino_to_path).getD [])).1 = some es2 →
      (readdir db st2 ino 0).1 = .entries (replyList es2 0) ∧
      alookup ino (readdir db st2 ino 0).2.dir_entries = some es2 := by
    intro st2 es2 h1 h2
    have h0 := readdir_miss db st2 ino 0 es2 h1 h2
    constructor
    · rw [h0]
    · rw [h0]
      dsimp only
      rw [if_pos rfl]
      dsimp only
      rw [alookup_cons, if_pos rfl]
  obtain ⟨hr1, hr2⟩ := key st es hmiss hcomp
  refine ⟨hr1, hr2, ?_, key⟩
  intro k hk
  have h1 := readdir_hit db (readdir db st ino 0).2 ino k es hr2
  constructor
  · rw [h1]
  · rw [h1]
    dsimp only
    by_cases hke : k = es.length
    · rw [if_pos hke, if_pos hke]
      exact alookup_aremove_self ino (readdir db st ino 0).2.dir_entries
    · rw [if_neg hke, if_neg hke]
      exact hr2

/-- C4 witness: the root directory of an empty index; its three entries are
    computed, cached, served and evicted as the theorem states. -/
theorem C4_witness :
    alookup 1 initSt.dir_entries = none ∧
    (computeEntries dbEmpty initSt ((alookup 1 initSt.ino_to_path).getD [])).1 =
      some [(1, FType.directory, "."), (1, FType.directory, ".."),
            (2, FType.directory, "@flatten")] ∧
    (readdir dbEmpty initSt 1 0).1 =
      .entries (replyList [(1, FType.directory, "."), (1, FType.directory, ".."),
                           (2, FType.directory, "@flatten")] 0) := by
  refine ⟨by decide, by decide, ?_⟩
  exact (C4_readdir_cache dbEmpty initSt 1
    [(1, FType.directory, "."), (1, FType.directory, ".."), (2, FType.directory, "@flatten")]
    (by decide) (by decide)).1

/-! Tag entries of the normal readdir branch: display string versus the path
    the inode is bound to. -/

theorem new_ino_extra_dirs (st : St) (p : List String) :
    (new_ino st p).2.extra_dirs = st.extra_dirs := by
  unfold new_ino
  rcases h : alookup p st.path_to_ino with _ | i <;> try rw [h]
  · rfl
  · rfl

theorem format_tag_some {t : Tag} {v : String} (h : t.value = some v) :
    format_tag t = t.name ++ " = " ++ v := by
  unfold format_tag
  rw [h]

theorem format_tag_value_ne_name {t : Tag} {v : String} (h : t.value = some v) :
    format_tag t ≠ t.name := by
  rw [format_tag_some h]
  intro he
  have hlen := congrArg String.length he
  rw [String.length_append, String.length_append,
      show (" = " : String).length = 3 from rfl] at hlen
  omega

theorem format_tag_value_ne_flatten {t : Tag} {v : String} (h : t.value = some v) :
    format_tag t ≠ "@flatten" := by
  rw [format_tag_some h]
  intro he
  have hd := congrArg String.data he
  rw [String.data_append, String.data_append] at hd
  have hsp : ' ' ∈ (t.name.data ++ (" = " : String).data) ++ v.data :=
    List.mem_append_left _ (List.mem_append_right _ (by decide))
  rw [hd] at hsp
  revert hsp
  decide

theorem append_singleton_ne {path : List String} {a b : String} (h : a ≠ b) :
    path ++ [a] ≠ path ++ [b] := by
  intro he
  exact h (by simpa using List.append_cancel_left he)

theorem normalTagStep_new (path : List String) (es : List Entry) (st : St) (t : Tag)
    (hnotin : path.contains (format_tag t) = false) :
    normalTagStep path (es, st) t =
      (es ++ [((new_ino st (path ++ [t.name])).1, FType.directory, format_tag t)],
       (new_ino st (path ++ [t.name])).2) := by
  unfold normalTagStep
  dsimp only
  rw [hnotin]
  simp only [Bool.false_eq_true, if_false]

/-- C10: a tag with a non-null value, not yet a component of the directory
    path, is listed by the normal readdir branch under the display name
    name = value while the inode placed in the entry is the one bound to the
    path extended with the bare tag name; a subsequent lookup of the
    displayed name under the same parent (taken here through the tag-match
    branch: the combined component list names no point, the path is not an
    extra directory and carries no flatten marker, and some tag of the
    queried points displays as the component) succeeds with a directory
    attribute whose inode differs from the listed one. -/
theorem C10_tag_entry_inode (db : Db) (st : St) (path : List String) (es : List Entry)
    (t : Tag) (v : String) (mpi : Option Nat)
    (hwf : WFst st)
    (hval : t.value = some v)
    (hnotin : path.contains (format_tag t) = false)
    (hnof : "@flatten" ∉ path)
    (hed : st.extra_dirs.contains (path ++ [format_tag t]) = false)
    (hlp : lookup_point_by_name db (path ++ [format_tag t]) = none)
    (htag : (get_tags_for_points db (get_points_by_parts db (path ++ [format_tag t]))).any
        (fun u => format_tag u == format_tag t) = true) :
    (normalTagStep path (es, st) t).1 =
      es ++ [((new_ino st (path ++ [t.name])).1, FType.directory, t.name ++ " = " ++ v)] ∧
    alookup (path ++ [t.name]) (normalTagStep path (es, st) t).2.path_to_ino =
      some (new_ino st (path ++ [t.name])).1 ∧
    (internal_lookup db (normalTagStep path (es, st) t).2 (path ++ [format_tag t]) mpi).1 =
      .dirAttr (new_ino (normalTagStep path (es, st) t).2 (path ++ [format_tag t])).1 ∧
    (new_ino (normalTagStep path (es, st) t).2 (path ++ [format_tag t])).1 ≠
      (new_ino st (path ++ [t.name])).1 := by
  have hstep := normalTagStep_new path es st t hnotin
  have hst1 : (normalTagStep path (es, st) t).2 = (new_ino st (path ++ [t.name])).2 := by
    rw [hstep]
  have hnof2 : "@flatten" ∉ path ++ [format_tag t] := by
    intro hmem
    rcases List.mem_append.mp hmem with h1 | h1
    · exact hnof h1
    · exact format_tag_value_ne_flatten hval (List.mem_singleton.mp h1).symm
  refine ⟨?_, ?_, ?_, ?_⟩
  · rw [hstep, format_tag_some hval]
  · rw [hst1]
    exact new_ino_bound st (path ++ [t.name])
  · rw [hst1]
    unfold internal_lookup
    rw [parsePath_normal_of hnof2]
    dsimp only
    rw [List.getLast?_concat]
    simp only [Option.getD_some]
    rw [if_neg (format_tag_value_ne_flatten hval)]
    rw [new_ino_extra_dirs, hed]
    rw [if_neg (by decide : ¬(false = true))]
    rw [if_neg (show ¬(path ++ [format_tag t]).length = 0 by simp)]
    rw [hlp]
    dsimp only
    rw [if_pos htag]
  · rw [hst1]
    exact new_ino_ne (new_ino_wf (path ++ [t.name]) hwf)
      (append_singleton_ne (format_tag_value_ne_name hval))
      (new_ino_bound st (path ++ [t.name]))

/-- C10 witness: the tag year = 2020 on a single point, read from the root:
    the listed inode is bound to the bare component year, and looking up the
    displayed component year = 2020 yields a different inode. -/
theorem C10_witness :
    WFst initSt ∧
    (⟨10, "year", some "2020", some 2020⟩ : Tag).value = some "2020" ∧
    (new_ino (normalTagStep [] ([], initSt) ⟨10, "year", some "2020", some 2020⟩).2
        ([] ++ [format_tag ⟨10, "year", some "2020", some 2020⟩])).1 ≠
      (new_ino initSt ([] ++ [(⟨10, "year", some "2020", some 2020⟩ : Tag).name])).1 := by
  have hwf : WFst initSt :=
    ⟨fun _ _ h => Option.noConfusion h, fun _ _ _ h _ => Option.noConfusion h⟩
  refine ⟨hwf, rfl, ?_⟩
  exact (C10_tag_entry_inode
    ⟨[⟨1, "a", some "/a", "h", false⟩], [⟨10, "year", some "2020", some 2020⟩], [⟨5, 10, 1⟩]⟩
    initSt [] [] ⟨10, "year", some "2020", some 2020⟩ "2020" none
    hwf rfl (by decide) (by decide) (by decide) (by decide) (by decide)).2.2.2

end Ffs
